import Mathlib

/-!
# Verification of the broken-link resolution engine (`fix_broken_links.py`)

Shallow embedding of the script's data model and operations.

Modelling conventions:
* Pure Python string manipulation is translated directly to Lean functions.
* Network, filesystem and browser effects are modelled by an explicit
  environment (`Env`) of response oracles; a Python call that raises is
  modelled by the oracle returning `none`, matched by the `try/except`
  structure of the source.
* Python `None` is `Option.none`; Python truthiness of strings is the
  "`none` or empty" test `isTruthy`.
* Python float arithmetic on similarity scores is modelled with exact
  rationals (the scores in play are small exact sums of small fractions).
* `difflib.SequenceMatcher` (the library the script's `similarity_score`
  wraps) is embedded from its documented CPython algorithm, including the
  `autojunk` heuristic.
-/

namespace FixBrokenLinks

/-- Python truthiness of an optional string: `None` and `""` are falsy. -/
def isTruthy : Option String → Bool
  | none => false
  | some s => !s.isEmpty

/-- Python `str.lower` (adequate for the ASCII strings this program compares). -/
def pyLower (s : String) : String := String.mk (s.toList.map Char.toLower)

/-- Python `s.startswith(t)`. -/
def pyStartsWith (s t : String) : Bool :=
  t.toList.isPrefixOf s.toList

/-- Python `s.strip()` (adequate for the ASCII whitespace of the inputs). -/
def pyTrim (s : String) : String :=
  String.mk (((s.toList.dropWhile Char.isWhitespace).reverse.dropWhile
    Char.isWhitespace).reverse)

/-- Splitting loop of `pySplitOn`: cut the character list at each leftmost
non-overlapping occurrence of `sep`.  Each iteration consumes at least one
character, so the character count is enough fuel; at zero fuel the
remaining characters (then none) close the last segment. -/
def pySplitOnAux (sep : List Char) : Nat → List Char → List Char → List (List Char)
  | 0, acc, s => [acc.reverse ++ s]
  | fuel + 1, acc, s =>
    match s with
    | [] => [acc.reverse]
    | c :: cs =>
      if sep.isPrefixOf (c :: cs) then
        acc.reverse :: pySplitOnAux sep fuel [] ((c :: cs).drop sep.length)
      else pySplitOnAux sep fuel (c :: acc) cs

/-- Python `s.split(sep)` for a non-empty separator (every call in the
script passes one; the degenerate empty separator keeps the string whole). -/
def pySplitOn (s sep : String) : List String :=
  if sep = "" then [s]
  else (pySplitOnAux sep.toList s.toList.length [] s.toList).map String.mk

/-- `sep.join parts`. -/
def joinSep (sep : String) : List String → String
  | [] => ""
  | [x] => x
  | x :: xs => x ++ sep ++ joinSep sep xs

/-- Replacement loop of `pyReplace`, with the same fuel discipline as
`pySplitOnAux`. -/
def pyReplaceAux (old new : List Char) : Nat → List Char → List Char
  | 0, s => s
  | fuel + 1, s =>
    match s with
    | [] => []
    | c :: cs =>
      if old.isPrefixOf (c :: cs) then
        new ++ pyReplaceAux old new fuel ((c :: cs).drop old.length)
      else c :: pyReplaceAux old new fuel cs

/-- Python `s.replace(old, new)` for a non-empty `old` (every call in the
script passes one). -/
def pyReplace (s old new : String) : String :=
  if old = "" then s
  else String.mk (pyReplaceAux old.toList new.toList s.toList.length s.toList)

/-- Python `pat in s` substring test (`base_url not in href` etc.). -/
def strContains (s pat : String) : Bool :=
  if pat = "" then true else (pySplitOn s pat).length != 1

/-- Python `s.rstrip("/")`. -/
def rstripSlashes (s : String) : String :=
  String.mk ((s.toList.reverse.dropWhile (· = '/')).reverse)

/-- Python `s.lstrip("/")`. -/
def lstripSlashes (s : String) : String :=
  String.mk (s.toList.dropWhile (· = '/'))

/-- Python `s.endswith(t)`. -/
def pyEndsWith (s t : String) : Bool :=
  t.toList.isSuffixOf s.toList

/-- Fragment component of `urllib.parse.urlparse`: everything after the
first `#` (later `#`s included). -/
def urlFragment (u : String) : String :=
  match pySplitOn u "#" with
  | [] => ""
  | [_] => ""
  | _ :: rest => joinSep "#" rest

/-- Characters Python's `urlparse` accepts inside a URL scheme. -/
def isSchemeChar (c : Char) : Bool :=
  c.isAlpha || c.isDigit || c = '+' || c = '-' || c = '.'

/-- `urlparse(u).path`: strip the fragment (first `#` on) and the query
(first `?` on); when a `scheme://netloc` head is present, strip it too.
Models `urllib.parse.urlparse` on the http(s) URLs and site-relative paths
this program handles (no scheme-relative `//netloc` forms). -/
def urlPath (u : String) : String :=
  let noFrag := (pySplitOn u "#").headD ""
  let noQuery := (pySplitOn noFrag "?").headD ""
  match pySplitOn noQuery "://" with
  | [] => ""
  | [_] => noQuery
  | scheme :: rest =>
    if scheme ≠ "" ∧ scheme.toList.all isSchemeChar then
      let hostPath := joinSep "://" rest
      match pySplitOn hostPath "/" with
      | [] => ""
      | [_] => ""
      | _ :: segs => "/" ++ joinSep "/" segs
    else noQuery

/-- The `parsed.path` plus `"#" + parsed.fragment` (when truthy) extraction
the script repeatedly applies to final URLs. -/
def pathWithFragment (u : String) : String :=
  let p := urlPath u
  if urlFragment u ≠ "" then p ++ "#" ++ urlFragment u else p

/-- `urllib.parse.urljoin base rel` restricted to how the script calls it:
`base` is an absolute http(s) URL ending in `/`, and `rel` is a relative
path with no leading `/` and no dot segments (root-relative links are
joined by string concatenation before `urljoin` is ever reached).  An empty
`rel` returns `base`; a `rel` carrying its own scheme wins. -/
def pyUrljoin (base rel : String) : String :=
  if rel = "" then base
  else if strContains rel "://" then rel
  else base ++ rel

/-- The absolute URL `check_redirect` builds from `base_url` and
`broken_link` (fix_broken_links.py:46-49). -/
def redirect_full_url (base_url broken_link : String) : String :=
  if pyStartsWith broken_link "/" then rstripSlashes base_url ++ broken_link
  else pyUrljoin (rstripSlashes base_url ++ "/") broken_link

/-- A DOM anchor element as the script observes it: its `href` attribute
(`none` when absent) and its rendered text. -/
structure Anchor where
  href : Option String
  text : String
deriving DecidableEq, Repr

/-- A DOM heading element: its `id` attribute (`""` when absent, matching
the truthiness tests applied to it) and its rendered text. -/
structure Header where
  id : String
  text : String
deriving DecidableEq, Repr

/-- Environment: observable responses of the network, filesystem and
browser.  A Python call raising is `none` where the script catches it. -/
structure Env where
  /-- `requests.head(url, allow_redirects=True)`: `none` models a raised
  exception, `some (status, finalUrl)` the final status code and URL. -/
  http : String → Option (Nat × String)
  /-- current URL shown by the driver once `driver.get url` returns. -/
  gotoUrl : String → String
  /-- result of `wait_for_page_load` after navigating to a URL. -/
  loadOk : String → Bool
  /-- file contents for `open(path).read()`; `none` = read raises. -/
  fileRead : String → Option String
  /-- `driver.find_element(By.LINK_TEXT, t)` on the page at a URL. -/
  findByLinkText : String → String → Option Anchor
  /-- `driver.find_element(By.PARTIAL_LINK_TEXT, t)` on the page at a URL. -/
  findByPartialLinkText : String → String → Option Anchor
  /-- URL observed after `smart_link_navigation` clicks an element while
  the driver shows a given URL (same-page anchor clicks return an unchanged
  or fragment-extended URL; failed clicks return the original URL, matching
  the `except` branch of `smart_link_navigation`). -/
  clickNav : String → Anchor → String
  /-- raw results of the nav/sidebar/menu anchor CSS query on a page. -/
  navAnchors : String → List Anchor
  /-- raw results of the breadcrumb anchor CSS query on a page. -/
  breadcrumbAnchors : String → List Anchor
  /-- raw results of the whole-document `By.TAG_NAME "a"` query on a page. -/
  allAnchors : String → List Anchor
  /-- raw results of the `//h1|//h2|..|//h6` XPath query on a page. -/
  headings : String → List Header
  /-- whether `driver.find_element(By.ID, i)` succeeds on a page. -/
  findId : String → String → Bool

/-- Observable effect events of one `find_correct_link` run, in execution
order. -/
inductive Event where
  | probe (url : String)
  | goto (url : String)
  | fileRead (path : String)
  | findText (text : String)
  | click
  | queryContent
  | queryAllAnchors
  | findId (anchor : String)
  | back
deriving DecidableEq, Repr

/-- `check_redirect(base_url, broken_link, timeout)`
(fix_broken_links.py:32-77).  Returns the final URL's path+fragment on a
`200` response whose final URL moved, the original link on a `200` response
that did not move, and `none` on any exception or other status. -/
def check_redirect (env : Env) (base_url broken_link : String) : Option String :=
  let full_url := redirect_full_url base_url broken_link
  match env.http full_url with
  | none => none
  | some (status, finalUrl) =>
    if status = 200 ∧ finalUrl ≠ full_url then some (pathWithFragment finalUrl)
    else if status = 200 ∧ finalUrl = full_url then some broken_link
    else none

/-- One page of the catalogue: the source page and its broken links in
catalogue order. -/
structure Entry where
  page : String
  broken_links : List String
deriving DecidableEq, Repr

/-- Parser loop state: emitted entries, current page, collected links. -/
abbrev ParseState := List Entry × Option String × List String

/-- One iteration of the `parse_broken_links_file` loop
(fix_broken_links.py:131-148). -/
def parseStep (st : ParseState) (rawLine : String) : ParseState :=
  let (entries, current_page, current_links) := st
  let line := pyTrim rawLine
  if line = "" then st
  else if pyStartsWith line "⎿" then
    let broken_link := pyTrim (pyReplace line "⎿" "")
    match current_page with
    | some _ => (entries, current_page, current_links ++ [broken_link])
    | none => st
  else
    match current_page with
    | some p =>
      if current_links ≠ [] then (entries ++ [⟨p, current_links⟩], some line, [])
      else (entries, some line, [])
    | none => (entries, some line, [])

/-- `parse_broken_links_file` (fix_broken_links.py:114-154), applied to the
catalogue text (the file read itself is outside this pure core). -/
def parse_broken_links_file (content : String) : List Entry :=
  let lines := pySplitOn (pyTrim content) "\n"
  match lines.foldl parseStep ([], none, []) with
  | (entries, some p, current_links) =>
    if current_links ≠ [] then entries ++ [⟨p, current_links⟩] else entries
  | (entries, none, _) => entries

/-!
## `difflib.SequenceMatcher`

`similarity_score` wraps `SequenceMatcher(None, a.lower(), b.lower()).ratio()`.
The library is embedded from the CPython algorithm: the `b2j` chains with the
`autojunk` popularity heuristic, the `j2len` dynamic program of
`find_longest_match` with its four junk-aware extension loops, and the total
matched size of `get_matching_blocks` (whose queue order, sorting and
adjacent-block merging do not change the total, so the total is computed by
direct recursion on the split regions).  Float division in `ratio` is
modelled by exact rational division.
-/

/-- Positions (ascending) of `c` in `b`: the raw `b2j` chains difflib
builds. -/
def positions (b : List Char) (c : Char) : List Nat :=
  (List.range b.length).filter (fun j => b.getD j ' ' = c)

/-- difflib's `autojunk` heuristic (`isjunk = None`): an element is junk
("popular") iff `b` has at least 200 elements and the element occurs more
than `len(b) // 100 + 1` times in `b`. -/
def isPopular (b : List Char) (c : Char) : Bool :=
  200 ≤ b.length ∧ b.length / 100 + 1 < b.count c

/-- The `b2j` map of difflib with popular elements deleted. -/
def b2jFn (b : List Char) (c : Char) : List Nat :=
  if isPopular b c then [] else positions b c

/-- Inner loop of `find_longest_match` over the ascending position chain of
`a[i]` in `b`: `continue` below `blo`, `break` at `bhi`, and difflib's
`j2len` / best-block updates (`j2len` is the previous row, `newj2len` the
row being built). -/
def flmInner (i blo bhi : Nat) (j2len : Nat → Nat) :
    List Nat → (Nat → Nat) → Nat × Nat × Nat → ((Nat → Nat) × (Nat × Nat × Nat))
  | [], newj2len, best => (newj2len, best)
  | j :: js, newj2len, best =>
    if j < blo then flmInner i blo bhi j2len js newj2len best
    else if bhi ≤ j then (newj2len, best)
    else
      let k := (if j = 0 then 0 else j2len (j - 1)) + 1
      let newj2len' := fun j' => if j' = j then k else newj2len j'
      let best' := if best.2.2 < k then (i + 1 - k, j + 1 - k, k) else best
      flmInner i blo bhi j2len js newj2len' best'

/-- Outer loop of `find_longest_match` over the rows `alo..ahi-1`. -/
def flmOuter (a b : List Char) (blo bhi : Nat) :
    List Nat → (Nat → Nat) → Nat × Nat × Nat → Nat × Nat × Nat
  | [], _, best => best
  | i :: is, j2len, best =>
    let r := flmInner i blo bhi j2len (b2jFn b (a.getD i ' ')) (fun _ => 0) best
    flmOuter a b blo bhi is r.1 r.2

/-- difflib's backward extension loops: grow the best block leftward over
elements whose junk status is `junkVal` while the elements match.  Each
iteration decrements `besti`, so the loop recurses structurally on it (the
guard `alo < besti` is false at zero, making the zero case exact). -/
def extendBackGo (a b : List Char) (junkVal : Bool) (alo blo : Nat) :
    Nat → Nat → Nat → Nat × Nat × Nat
  | 0, bestj, bestsize => (0, bestj, bestsize)
  | besti + 1, bestj, bestsize =>
    if alo < besti + 1 ∧ blo < bestj ∧ isPopular b (b.getD (bestj - 1) ' ') = junkVal
        ∧ a.getD besti ' ' = b.getD (bestj - 1) ' ' then
      extendBackGo a b junkVal alo blo besti (bestj - 1) (bestsize + 1)
    else (besti + 1, bestj, bestsize)

/-- The backward extension loops on the best triple. -/
def extendBack (a b : List Char) (junkVal : Bool) (alo blo : Nat)
    (p : Nat × Nat × Nat) : Nat × Nat × Nat :=
  extendBackGo a b junkVal alo blo p.1 p.2.1 p.2.2

/-- difflib's forward extension loops: grow the best block rightward over
elements whose junk status is `junkVal` while the elements match.  The
fuel is the room `ahi - (besti + bestsize)` left for the block, which the
guard `besti + bestsize < ahi` bounds, so the loop recurses structurally on
it (the zero case is exact because the guard is then false). -/
def extendFwdGo (a b : List Char) (junkVal : Bool) (ahi bhi besti bestj : Nat) :
    Nat → Nat → Nat
  | 0, bestsize => bestsize
  | fuel + 1, bestsize =>
    if besti + bestsize < ahi ∧ bestj + bestsize < bhi
        ∧ isPopular b (b.getD (bestj + bestsize) ' ') = junkVal
        ∧ a.getD (besti + bestsize) ' ' = b.getD (bestj + bestsize) ' ' then
      extendFwdGo a b junkVal ahi bhi besti bestj fuel (bestsize + 1)
    else bestsize

/-- The forward extension loops on the best size. -/
def extendFwd (a b : List Char) (junkVal : Bool) (ahi bhi besti bestj : Nat)
    (bestsize : Nat) : Nat :=
  extendFwdGo a b junkVal ahi bhi besti bestj (ahi - (besti + bestsize)) bestsize

/-- `SequenceMatcher.find_longest_match(alo, ahi, blo, bhi)`: the dynamic
program followed by the non-junk and junk extension passes. -/
def find_longest_match (a b : List Char) (alo ahi blo bhi : Nat) : Nat × Nat × Nat :=
  let best := flmOuter a b blo bhi (List.range' alo (ahi - alo)) (fun _ => 0) (alo, blo, 0)
  let b1 := extendBack a b false alo blo best
  let s2 := extendFwd a b false ahi bhi b1.1 b1.2.1 b1.2.2
  let b3 := extendBack a b true alo blo (b1.1, b1.2.1, s2)
  let s4 := extendFwd a b true ahi bhi b3.1 b3.2.1 b3.2.2
  (b3.1, b3.2.1, s4)

/-! ### Characterisation of the `find_longest_match` dynamic program -/

/-- Condition for the DP to write a cell `(i, j)`: the row is in range and
`j` sits in the in-window part of the `b2j` chain for `a[i]`. -/
def flmCellCond (a b : List Char) (alo blo bhi : Nat) (i j : Nat) : Prop :=
  alo ≤ i ∧ blo ≤ j ∧ j < bhi ∧ j ∈ b2jFn b (a.getD i ' ')

instance (a b : List Char) (alo blo bhi i j : Nat) :
    Decidable (flmCellCond a b alo blo bhi i j) := by
  unfold flmCellCond; exact inferInstance

/-- The value the DP stores at cell `(i, j)` (0 when never written): chain
length of matching, junk-free positions ending at `(i, j)`. -/
def flmVal (a b : List Char) (alo blo bhi : Nat) : Nat → Nat → Nat
  | 0, j => if flmCellCond a b alo blo bhi 0 j then 1 else 0
  | i + 1, 0 => if flmCellCond a b alo blo bhi (i + 1) 0 then 1 else 0
  | i + 1, j + 1 =>
    if flmCellCond a b alo blo bhi (i + 1) (j + 1) then
      flmVal a b alo blo bhi i j + 1
    else 0

/-- One best-block update of the DP applied to a cell `(i, j)` holding
chain length `k`. -/
def bestStep (best u : Nat × Nat × Nat) : Nat × Nat × Nat :=
  if best.2.2 < u.2.2 then (u.1 + 1 - u.2.2, u.2.1 + 1 - u.2.2, u.2.2) else best

/-- The best-block triple a cell update produces. -/
def mkBest (u : Nat × Nat × Nat) : Nat × Nat × Nat :=
  (u.1 + 1 - u.2.2, u.2.1 + 1 - u.2.2, u.2.2)

/-- Scan-ordered (row, column, chain value) cells the DP writes. -/
def flmCells (a b : List Char) (alo ahi blo bhi : Nat) : List (Nat × Nat × Nat) :=
  (List.range' alo (ahi - alo)).flatMap fun i =>
    ((b2jFn b (a.getD i ' ')).filter fun j => decide (blo ≤ j) && decide (j < bhi)).map
      fun j => (i, j, flmVal a b alo blo bhi i j)

/-- The `j2len` row the outer loop holds before row `i` satisfies the DP
recurrence for the cells of row `i`. -/
def prevRowOk (a b : List Char) (alo blo bhi i : Nat) (prev : Nat → Nat) : Prop :=
  ∀ j, flmCellCond a b alo blo bhi i j →
    (if j = 0 then 0 else prev (j - 1)) + 1 = flmVal a b alo blo bhi i j

/-- A best triple is sound for the window: when non-trivial it denotes an
in-window block of matching elements. -/
def SoundBest (a b : List Char) (alo ahi blo bhi : Nat) : Nat × Nat × Nat → Prop
  | (bi, bj, k) =>
    1 ≤ k → alo ≤ bi ∧ bi + k ≤ ahi ∧ blo ≤ bj ∧ bj + k ≤ bhi ∧
      ∀ t < k, a.getD (bi + t) ' ' = b.getD (bj + t) ' '

/-- Fuel-indexed total size of the matching blocks of difflib's
`get_matching_blocks`: each window is split around its longest match. -/
def matchTotalFuel (a b : List Char) : Nat → Nat → Nat → Nat → Nat → Nat
  | 0, _, _, _, _ => 0
  | fuel + 1, alo, ahi, blo, bhi =>
    match find_longest_match a b alo ahi blo bhi with
    | (i, j, k) =>
      if k = 0 then 0
      else
        (if alo < i ∧ blo < j then matchTotalFuel a b fuel alo i blo j else 0) + k +
        (if i + k < ahi ∧ j + k < bhi then matchTotalFuel a b fuel (i + k) ahi (j + k) bhi
         else 0)

/-- Total size of the matching blocks difflib's `get_matching_blocks`
returns: the queue recursion splits each window around its longest match
(queue order, the final sort and adjacent-block merging do not change the
size total, so the total is computed by direct recursion on the split
windows; the fuel `(ahi-alo)+(bhi-blo)` bounds the recursion depth). -/
def matchTotal (a b : List Char) (alo ahi blo bhi : Nat) : Nat :=
  matchTotalFuel a b ((ahi - alo) + (bhi - blo)) alo ahi blo bhi

/-- `SequenceMatcher(None, a, b).ratio() = 2*M/T` (difflib
`_calculate_ratio`, which returns 1.0 when both sequences are empty), with
float division modelled by exact rational division. -/
def ratioQ (a b : List Char) : ℚ :=
  if a.length + b.length = 0 then 1
  else 2 * (matchTotal a b 0 a.length 0 b.length : ℚ) / ((a.length + b.length : Nat) : ℚ)

/-- `similarity_score(a, b)` (fix_broken_links.py:193-195):
`SequenceMatcher(None, a.lower(), b.lower()).ratio()`. -/
def similarity_score (s t : String) : ℚ :=
  ratioQ (pyLower s).toList (pyLower t).toList

/-!
## Content analysis and the strategy cascade
-/

/-- A nav/breadcrumb link record collected by `analyze_page_content`. -/
structure NavLink where
  href : String
  text : String
deriving DecidableEq, Repr

/-- The `content_info` dictionary of `analyze_page_content` (the unused
`page_structure` entry and the headers' `tag` field are omitted: nothing
reads them). -/
structure ContentInfo where
  nav_links : List NavLink
  section_headers : List Header
  breadcrumbs : List NavLink
deriving Repr

/-- `analyze_page_content(driver)` (fix_broken_links.py:198-241): collect
nav links, headings and breadcrumbs of the current page, keeping elements
whose attributes are truthy as the source requires. -/
def analyze_page_content (env : Env) (cur : String) : ContentInfo :=
  { nav_links := (env.navAnchors cur).filterMap fun l =>
      match l.href with
      | some h => if h ≠ "" ∧ pyTrim l.text ≠ "" then some ⟨h, pyTrim l.text⟩ else none
      | none => none
    section_headers := (env.headings cur).filterMap fun h =>
      if h.id ≠ "" ∨ pyTrim h.text ≠ "" then some ⟨h.id, pyTrim h.text⟩ else none
    breadcrumbs := (env.breadcrumbAnchors cur).filterMap fun l =>
      match l.href with
      | some h => if h ≠ "" ∧ pyTrim l.text ≠ "" then some ⟨h, pyTrim l.text⟩ else none
      | none => none }

/-- Python `[part for part in s.split("/") if part]`. -/
def pathParts (s : String) : List String :=
  (pySplitOn s "/").filter (fun p => p ≠ "")

/-- Number of distinct shared elements: `len(set(xs) & set(ys))`. -/
def interCount (xs ys : List String) : Nat :=
  (xs.dedup.filter (fun x => x ∈ ys)).length

/-- `broken_link.split("#")[0] if "#" in broken_link else broken_link`. -/
def brokenPathOf (broken_link : String) : String :=
  if strContains broken_link "#" then (pySplitOn broken_link "#").headD ""
  else broken_link

/-- `broken_link.split("#")[1] if "#" in broken_link else None`. -/
def brokenAnchorOf (broken_link : String) : Option String :=
  if strContains broken_link "#" then some (((pySplitOn broken_link "#").drop 1).headD "")
  else none

/-- Membership in the slugification alphabet `[a-zA-Z0-9]`. -/
def isAsciiAlnum (c : Char) : Bool :=
  ('a' ≤ c ∧ c ≤ 'z') ∨ ('A' ≤ c ∧ c ≤ 'Z') ∨ ('0' ≤ c ∧ c ≤ '9')

/-- `re.sub(r"[^a-zA-Z0-9]+", "-", s)`: collapse each run of
non-alphanumeric characters into one hyphen.  The boolean flag records
whether we are inside a non-alphanumeric run whose hyphen has already been
emitted. -/
def collapseGo : Bool → List Char → List Char
  | _, [] => []
  | inRun, c :: cs =>
    if isAsciiAlnum c then c :: collapseGo false cs
    else if inRun then collapseGo true cs
    else '-' :: collapseGo true cs

/-- `re.sub(r"[^a-zA-Z0-9]+", "-", s)` on a character list. -/
def collapseNonAlnum (s : List Char) : List Char :=
  collapseGo false s

/-- Python `s.strip("-")`. -/
def stripHyphens (s : List Char) : List Char :=
  ((s.dropWhile (· = '-')).reverse.dropWhile (· = '-')).reverse

/-- The heading-text slugification of the anchor matcher
(fix_broken_links.py:293-295). -/
def textSlug (text : String) : String :=
  String.mk (stripHyphens (collapseNonAlnum (pyLower text).toList))

/-- One step of the nav-link scoring loop of `find_best_match_by_content`
(fix_broken_links.py:256-275); the state is `(best_match, best_score)`.
Float literals `0.3` become the exact `3/10`. -/
def navLoopStep (broken_path : String) (broken_anchor : Option String)
    (st : Option String × ℚ) (nav : NavLink) : Option String × ℚ :=
  let href_parts := pathParts (urlPath nav.href)
  let broken_path_parts := pathParts broken_path
  let common := interCount broken_path_parts href_parts
  if common ≠ 0 then
    let score : ℚ := (common : ℚ) / ((max broken_path_parts.length href_parts.length : Nat) : ℚ)
      + similarity_score broken_path nav.text * (3 / 10)
    if st.2 < score ∧ (3 / 10 : ℚ) < score then
      let bm := urlPath nav.href
      (some (match broken_anchor with
             | some anc => if anc ≠ "" then bm ++ "#" ++ anc else bm
             | none => bm), score)
    else st
  else st

/-- The per-heading anchor resolution loop of `find_best_match_by_content`
(fix_broken_links.py:278-298): for each heading in document order, try the
exact id match, then the fuzzy id match above 0.7, then the slugified-text
match above 0.7, returning on the first hit. -/
def anchorLoop (broken_anchor current_path : String) : List Header → Option String
  | [] => none
  | h :: hs =>
    if h.id ≠ "" ∧ h.id = broken_anchor then some (current_path ++ "#" ++ h.id)
    else if h.id ≠ "" ∧ (7 / 10 : ℚ) < similarity_score h.id broken_anchor then
      some (current_path ++ "#" ++ h.id)
    else if h.text ≠ "" ∧ (7 / 10 : ℚ) < similarity_score (textSlug h.text) broken_anchor then
      some (current_path ++ "#" ++ (if h.id ≠ "" then h.id else textSlug h.text))
    else anchorLoop broken_anchor current_path hs

/-- `find_best_match_by_content(broken_link, content_info, current_url)`
(fix_broken_links.py:244-300). -/
def find_best_match_by_content (broken_link : String) (content_info : ContentInfo)
    (current_url : String) : Option String :=
  let broken_path := brokenPathOf broken_link
  let broken_anchor := brokenAnchorOf broken_link
  let st := content_info.nav_links.foldl (navLoopStep broken_path broken_anchor) (none, 0)
  let best_match := st.1
  if isTruthy broken_anchor ∧ isTruthy best_match = false then
    match broken_anchor with
    | some anc =>
      match anchorLoop anc (urlPath current_url) content_info.section_headers with
      | some r => some r
      | none => best_match
    | none => best_match
  else best_match

/-- Match of the regex `\[([^\]]+)\]\(<broken_link>\)` at the current
position: a non-empty bracketed text (which cannot contain `]`) followed by
the exact parenthesised link. -/
def mdxLinkAt (broken_link : String) : List Char → Option String
  | '[' :: rest =>
    let text := rest.takeWhile (· ≠ ']')
    if text.length = 0 then none
    else
      match rest.drop text.length with
      | ']' :: '(' :: r2 =>
        if List.isPrefixOf (broken_link.toList ++ [')']) r2 then some (String.mk text)
        else none
      | _ => none
  | _ => none

/-- `re.search` for the markdown-link pattern: try each start position from
the left. -/
def findMdxLinkText (broken_link : String) : List Char → Option String
  | [] => none
  | c :: cs =>
    match mdxLinkAt broken_link (c :: cs) with
    | some t => some t
    | none => findMdxLinkText broken_link cs

/-- `extract_link_text_from_mdx(mdx_file_path, broken_link)`
(fix_broken_links.py:80-111): read the file and extract the clickable text
of the first markdown link targeting `broken_link`; `none` on a read
failure or no match. -/
def extract_link_text_from_mdx (env : Env) (mdx_file_path broken_link : String) :
    Option String :=
  match env.fileRead mdx_file_path with
  | none => none
  | some content => findMdxLinkText broken_link content.toList

/-- `smart_link_navigation(driver, link_element, max_wait)`
(fix_broken_links.py:303-337).  Its observable outcome — the driver's URL
after the click, URL polling and load wait — is the environment's click
oracle; the `except` branch returning the original URL is one of the
oracle's possible answers. -/
def smart_link_navigation (env : Env) (cur : String) (link_element : Anchor) : String :=
  env.clickNav cur link_element

/-- `find_link_by_text_and_click(driver, link_text, broken_link)`
(fix_broken_links.py:340-404), returning
`(fix, method, driver URL afterwards, effect events)`. -/
def find_link_by_text_and_click (env : Env) (cur : String)
    (link_text broken_link : String) : Option String × Option String × String × List Event :=
  match (match env.findByLinkText cur link_text with
         | some el => some el
         | none => env.findByPartialLinkText cur link_text) with
  | none => (none, none, cur, [Event.findText link_text])
  | some link_element =>
    let hrefHit : Option String :=
      match link_element.href with
      | some h =>
        if h ≠ "" then
          let href_path := pathWithFragment h
          if href_path ≠ broken_link then some href_path else none
        else none
      | none => none
    match hrefHit with
    | some p => (some p, some "text_href_match", cur, [Event.findText link_text])
    | none =>
      let new_url := smart_link_navigation env cur link_element
      if new_url ≠ cur then
        (some (pathWithFragment new_url), some "text_click_navigation", new_url,
          [Event.findText link_text, Event.click])
      else (none, none, cur, [Event.findText link_text, Event.click])

/-- The anchor filter of the generic pass (fix_broken_links.py:474-482):
skip href-less anchors and external links not containing the base URL. -/
def candidateFilter (base_url : String) (l : Anchor) : Option String :=
  match l.href with
  | none => none
  | some h =>
    if h = "" then none
    else if pyStartsWith h "http" ∧ strContains h base_url = false then none
    else some h

/-- Score of one anchor candidate in the generic pass
(fix_broken_links.py:484-505); float literals `0.7/0.3/0.2` become
`7/10`, `3/10`, `1/5`. -/
def genericScore (broken_parts : List String) (href link_text : String) : ℚ :=
  let link_parts := pathParts (urlPath href)
  let s1 : ℚ :=
    if interCount broken_parts link_parts ≠ 0 ∧ broken_parts ≠ [] then
      (interCount broken_parts link_parts : ℚ) / (broken_parts.length : ℚ) * (7 / 10)
    else 0
  let s2 : ℚ :=
    if link_text ≠ "" ∧ broken_parts ≠ [] then
      ((broken_parts.map fun part => similarity_score link_text part).foldl max 0) * (3 / 10)
    else 0
  let s3 : ℚ :=
    if broken_parts ≠ [] ∧ link_parts ≠ [] ∧ broken_parts.getLast? = link_parts.getLast? then
      1 / 5
    else 0
  s1 + s2 + s3

/-- Stable descending insertion by score, matching Python's stable
`list.sort(key=..., reverse=True)`. -/
def insertDesc (x : Anchor × ℚ × String) :
    List (Anchor × ℚ × String) → List (Anchor × ℚ × String)
  | [] => [x]
  | y :: ys => if x.2.1 < y.2.1 ∨ x.2.1 = y.2.1 then y :: insertDesc x ys else x :: y :: ys

/-- Stable descending sort by score. -/
def sortDesc (l : List (Anchor × ℚ × String)) : List (Anchor × ℚ × String) :=
  l.foldr insertDesc []

/-- Anchor handling after a successful candidate navigation
(fix_broken_links.py:520-548): keep the new URL's fragment, else resolve
the broken link's anchor against the new page. -/
def navAnchorPath (env : Env) (broken_anchor : Option String) (new_url : String) :
    String × List Event :=
  let correct_path := urlPath new_url
  if urlFragment new_url ≠ "" then (correct_path ++ "#" ++ urlFragment new_url, [])
  else match broken_anchor with
    | some anc =>
      if anc ≠ "" then
        if env.findId new_url anc then (correct_path ++ "#" ++ anc, [Event.findId anc])
        else
          match (env.headings new_url).find?
              (fun h => decide (h.id ≠ "" ∧ (7 / 10 : ℚ) < similarity_score h.id anc)) with
          | some h => (correct_path ++ "#" ++ h.id, [Event.findId anc])
          | none => (correct_path ++ "#" ++ anc, [Event.findId anc])
      else (correct_path, [])
    | none => (correct_path, [])

/-- The top-candidate click loop of the generic pass
(fix_broken_links.py:511-558): click candidates in score order; the first
click that actually navigates wins, followed by `driver.back()`. -/
def tryCandidates (env : Env) (broken_anchor : Option String) (cur : String) :
    List (Anchor × ℚ × String) → Option String × Option String × List Event
  | [] => (none, none, [])
  | (link, _, _) :: rest =>
    let new_url := smart_link_navigation env cur link
    if new_url ≠ cur then
      let pe := navAnchorPath env broken_anchor new_url
      (some pe.1, some "navigation", Event.click :: pe.2 ++ [Event.back])
    else
      let r := tryCandidates env broken_anchor cur rest
      (r.1, r.2.1, Event.click :: r.2.2)

/-- Strategy 4, the generic link-candidate navigation
(fix_broken_links.py:464-560). -/
def genericNavigation (env : Env) (base_url broken_link cur : String) :
    Option String × Option String × List Event :=
  let broken_parts := pathParts (brokenPathOf broken_link)
  let broken_anchor := brokenAnchorOf broken_link
  let candidates := (env.allAnchors cur).filterMap fun l =>
    match candidateFilter base_url l with
    | none => none
    | some h =>
      let score := genericScore broken_parts h (pyTrim l.text)
      if (3 / 10 : ℚ) < score then some (l, score, h) else none
  let top := (sortDesc candidates).take 3
  let r := tryCandidates env broken_anchor cur top
  (r.1, r.2.1, Event.queryAllAnchors :: r.2.2)

/-- Result of `find_correct_link`: proposed fix, method used, and the
effect trace of the run. -/
structure FCLResult where
  fix : Option String
  method : Option String
  trace : List Event
deriving DecidableEq, Repr

/-- Strategies 3 and 4 of `find_correct_link` (fix_broken_links.py:449-560),
reached when the redirect probe and the text-based pass found nothing. -/
def strategies34 (env : Env) (base_url broken_link cur : String) (tr : List Event) :
    FCLResult :=
  let content_info := analyze_page_content env cur
  let tr3 := tr ++ [Event.queryContent]
  let content_match := find_best_match_by_content broken_link content_info cur
  if isTruthy content_match then
    { fix := content_match, method := some "content_matching", trace := tr3 }
  else
    let r := genericNavigation env base_url broken_link cur
    { fix := r.1, method := r.2.1, trace := tr3 ++ r.2.2 }

/-- `find_correct_link(driver, base_url, page_path, broken_link)`
(fix_broken_links.py:407-564): the per-link strategy cascade.  Truthiness
tests (`if redirect_result:`, `if text_result[0]:`, `if content_match:`)
follow the source, so an empty-string result falls through to the next
strategy. -/
def find_correct_link (env : Env) (base_url page_path broken_link : String) : FCLResult :=
  let full_url := redirect_full_url base_url broken_link
  let redirect_result := check_redirect env base_url broken_link
  if isTruthy redirect_result then
    { fix := redirect_result, method := some "http_redirect",
      trace := [Event.probe full_url] }
  else
    let clean_page_path := lstripSlashes (pyReplace page_path ".mdx" "")
    let page_url := pyUrljoin (rstripSlashes base_url ++ "/") clean_page_path
    let cur := env.gotoUrl page_url
    let tr0 := [Event.probe full_url, Event.goto page_url]
    if env.loadOk page_url = false then { fix := none, method := none, trace := tr0 }
    else
      let mdx0 := if pyEndsWith page_path ".mdx" then page_path else page_path ++ ".mdx"
      let mdx_file_path :=
        if pyStartsWith mdx0 "/" then mdx0 else "D:/writechoice/wandb-docs/" ++ mdx0
      let link_text := extract_link_text_from_mdx env mdx_file_path broken_link
      let tr1 := tr0 ++ [Event.fileRead mdx_file_path]
      match link_text with
      | some lt =>
        if lt ≠ "" then
          let r := find_link_by_text_and_click env cur lt broken_link
          match r.1 with
          | some fx =>
            if fx ≠ "" then { fix := some fx, method := r.2.1, trace := tr1 ++ r.2.2.2 }
            else strategies34 env base_url broken_link r.2.2.1 (tr1 ++ r.2.2.2)
          | none => strategies34 env base_url broken_link r.2.2.1 (tr1 ++ r.2.2.2)
        else strategies34 env base_url broken_link cur tr1
      | none => strategies34 env base_url broken_link cur tr1

/-!
## Worker and pool
-/

/-- One per-link record of a worker's `page_report["links"]`; `Option`
fields model keys the source only sometimes writes.  The wall-clock
`processing_time` is not modelled. -/
structure LinkReport where
  broken : String
  fix : Option String
  confidence : String
  fix_method : Option String
  fix_type : Option String
  error : Option String
deriving DecidableEq, Repr

/-- A worker's `page_report` (`worker_id` is `none` for the pool-level
error dictionaries built without one). -/
structure PageReport where
  page : String
  links : List LinkReport
  worker_id : Option Nat
  error : Option String
deriving DecidableEq, Repr

/-- One iteration of the worker's per-link loop
(fix_broken_links.py:599-641).  `raised` models an exception escaping the
loop body into the per-link `except` handler (the body's own calls catch
their exceptions, so this covers failures such as the progress-queue
calls). -/
def processLink (env : Env) (base_url page broken_link : String)
    (raised : Option String) : LinkReport :=
  match raised with
  | some e =>
    { broken := broken_link, fix := none, confidence := "none",
      fix_method := none, fix_type := none, error := some e }
  | none =>
    let result := find_correct_link env base_url page broken_link
    let correct_link := result.fix
    { broken := broken_link
      fix := correct_link
      confidence := if isTruthy correct_link then "high" else "none"
      fix_method := if isTruthy correct_link then some (result.method.getD "unknown")
        else none
      fix_type :=
        if isTruthy correct_link then
          some (if correct_link ≠ some broken_link then "redirect" else "validation")
        else none
      error := none }

/-- `process_entry_worker(entry, base_url, worker_id, progress_queue)`
(fix_broken_links.py:567-665).  `outerFail` models an exception reaching
the job-level `except Exception` handler; `raiseAt i` models a per-link
exception at link index `i`.  Driver teardown has no observable effect. -/
def process_entry_worker (env : Env) (entry : Entry) (base_url : String)
    (worker_id : Nat) (outerFail : Option String) (raiseAt : Nat → Option String) :
    PageReport :=
  match outerFail with
  | some e =>
    { page := entry.page, links := [], worker_id := some worker_id, error := some e }
  | none =>
    { page := entry.page
      links := entry.broken_links.enum.map fun p =>
        processLink env base_url entry.page p.2 (raiseAt p.1)
      worker_id := some worker_id
      error := none }

/-- `MAX_INSTANCES` (fix_broken_links.py:29). -/
def MAX_INSTANCES : Nat := 15

/-- `process_entries_parallel(entries, base_url, max_workers)`
(fix_broken_links.py:668-737).  `ThreadPoolExecutor` rejects a
non-positive worker count by raising `ValueError("max_workers must be
greater than 0")`, modelled as `Except.error`; `order` is the completion
order in which `as_completed` yields the submitted futures (in use, a
permutation of the submission indices). -/
def process_entries_parallel (env : Env) (entries : List Entry) (base_url : String)
    (max_workers : Option Nat) (outerFail : Nat → Option String)
    (raiseAt : Nat → Nat → Option String) (order : List Nat) :
    Except String (List PageReport) :=
  let mw := match max_workers with
    | none => min MAX_INSTANCES entries.length
    | some m => m
  if mw = 0 then Except.error "max_workers must be greater than 0"
  else
    Except.ok (order.filterMap fun i =>
      (entries[i]?).map fun e =>
        process_entry_worker env e base_url (i + 1) (outerFail i) (raiseAt i))

/-- An environment in which every request raises, every page load times
out, file reads fail and the DOM is empty. -/
def failEnv : Env :=
  { http := fun _ => none
    gotoUrl := fun u => u
    loadOk := fun _ => false
    fileRead := fun _ => none
    findByLinkText := fun _ _ => none
    findByPartialLinkText := fun _ _ => none
    clickNav := fun c _ => c
    navAnchors := fun _ => []
    breadcrumbAnchors := fun _ => []
    allAnchors := fun _ => []
    headings := fun _ => []
    findId := fun _ _ => false }

/-- A network answering every request with a `200` redirect to
`https://x.io/new`, everything else failing. -/
def envRedirect : Env :=
  { failEnv with http := fun _ => some (200, "https://x.io/new") }

/-- A network answering every request with a `200` whose final URL equals
the requested URL (nothing ever redirects), everything else failing. -/
def envSelf : Env :=
  { failEnv with http := fun u => some (200, u) }

/-- A network answering every request with a body-less `204` success whose
final URL moved, everything else failing. -/
def env204 : Env :=
  { failEnv with http := fun _ => some (204, "https://x.io/new") }

/-- A page whose first heading id is a near miss for the anchor `setup`
and whose second heading id matches it exactly. -/
def ci7 : ContentInfo :=
  { nav_links := []
    section_headers := [⟨"setupp", "Tuning"⟩, ⟨"setup", "Install"⟩]
    breadcrumbs := [] }

/-- The per-heading anchor-resolution tiers as the amended specification
sentence states them: scan the headings in order; for each heading try the
exact id match, then the fuzzy id match above 0.7, then the slugified-text
match above 0.7; the first heading that hits wins, and a slug hit returns
the heading's id when present, else the slug. -/
def anchorTiersSpec (fragment currentPath : String) (headers : List Header) :
    Option String :=
  headers.firstM fun h =>
    if h.id ≠ "" ∧ h.id = fragment then some (currentPath ++ "#" ++ h.id)
    else if h.id ≠ "" ∧ (7 / 10 : ℚ) < similarity_score h.id fragment then
      some (currentPath ++ "#" ++ h.id)
    else if h.text ≠ "" ∧ (7 / 10 : ℚ) < similarity_score (textSlug h.text) fragment then
      some (currentPath ++ "#" ++ (if h.id ≠ "" then h.id else textSlug h.text))
    else none

section FlmLemmas

variable {a b : List Char} {alo ahi blo bhi : Nat}

theorem mem_positions {c : Char} {j : Nat} :
    j ∈ positions b c ↔ j < b.length ∧ b.getD j ' ' = c := by
  simp [positions, List.mem_filter, List.mem_range]

theorem positions_pairwise (c : Char) : (positions b c).Pairwise (· < ·) :=
  (List.pairwise_lt_range b.length).filter _

theorem b2jFn_pairwise (c : Char) : (b2jFn b c).Pairwise (· < ·) := by
  unfold b2jFn
  split
  · exact List.Pairwise.nil
  · exact positions_pairwise c

theorem mem_b2jFn {c : Char} {j : Nat} :
    j ∈ b2jFn b c ↔ isPopular b c = false ∧ j < b.length ∧ b.getD j ' ' = c := by
  unfold b2jFn
  by_cases h : isPopular b c
  · simp [h]
  · simp only [Bool.not_eq_true] at h
    simp [h, mem_positions]

theorem flmCellCond_of_val_pos {i j : Nat}
    (h : 1 ≤ flmVal a b alo blo bhi i j) : flmCellCond a b alo blo bhi i j := by
  by_contra hc
  match i, j with
  | 0, j => simp [flmVal, hc] at h
  | i + 1, 0 => simp [flmVal, hc] at h
  | i + 1, j + 1 => simp [flmVal, hc] at h

theorem flmVal_pos_of_cond {i j : Nat}
    (h : flmCellCond a b alo blo bhi i j) : 1 ≤ flmVal a b alo blo bhi i j := by
  match i, j with
  | 0, j => simp [flmVal, h]
  | i + 1, 0 => simp [flmVal, h]
  | i + 1, j + 1 => simp [flmVal, h]

/-- Window bounds of a DP cell value. -/
theorem flmVal_le (i j : Nat) :
    flmVal a b alo blo bhi i j ≤ i + 1 - alo ∧ flmVal a b alo blo bhi i j ≤ j + 1 - blo := by
  induction i generalizing j with
  | zero =>
    simp only [flmVal]
    split
    · rename_i h; rcases h with ⟨h1, h2, -⟩; omega
    · omega
  | succ i ih =>
    match j with
    | 0 =>
      simp only [flmVal]
      split
      · rename_i h; rcases h with ⟨h1, h2, -⟩; omega
      · omega
    | j + 1 =>
      simp only [flmVal]
      split
      · rename_i h
        rcases h with ⟨h1, h2, -⟩
        have := ih j
        omega
      · omega

/-- Every cell along the chain of a DP cell satisfies the cell condition,
and the chain value decreases along it. -/
theorem flmVal_chain {i j m : Nat} (h : flmVal a b alo blo bhi i j = m) :
    ∀ s < m, flmCellCond a b alo blo bhi (i - s) (j - s) ∧
      flmVal a b alo blo bhi (i - s) (j - s) = m - s := by
  induction i generalizing j m with
  | zero =>
    intro s hs
    simp only [flmVal] at h
    split at h <;> rename_i hc
    · have hs0 : s = 0 := by omega
      subst hs0
      simp only [Nat.sub_zero]
      refine ⟨hc, ?_⟩
      simp only [flmVal, if_pos hc]
      omega
    · omega
  | succ i ih =>
    intro s hs
    match j with
    | 0 =>
      simp only [flmVal] at h
      split at h <;> rename_i hc
      · have hs0 : s = 0 := by omega
        subst hs0
        simp only [Nat.sub_zero]
        refine ⟨hc, ?_⟩
        simp only [flmVal, if_pos hc]
        omega
      · omega
    | j + 1 =>
      simp only [flmVal] at h
      split at h <;> rename_i hc
      · match s with
        | 0 =>
          simp only [Nat.sub_zero]
          refine ⟨hc, ?_⟩
          simp only [flmVal, if_pos hc]
          omega
        | s + 1 =>
          obtain ⟨hc2, hv2⟩ := ih (j := j) (m := flmVal a b alo blo bhi i j) rfl s (by omega)
          simp only [Nat.succ_sub_succ]
          exact ⟨hc2, by omega⟩
      · omega

theorem flmVal_zero_of_not_cond {i j : Nat}
    (h : ¬ flmCellCond a b alo blo bhi i j) : flmVal a b alo blo bhi i j = 0 := by
  by_contra hv
  exact h (flmCellCond_of_val_pos (by omega))

theorem bestStep_cases (best u : Nat × Nat × Nat) :
    bestStep best u = best ∨ bestStep best u = mkBest u := by
  unfold bestStep mkBest
  split
  · right; rfl
  · left; rfl

theorem foldl_bestStep_preserve {P : Nat × Nat × Nat → Prop} :
    ∀ (us : List (Nat × Nat × Nat)) (init : Nat × Nat × Nat),
      P init → (∀ u ∈ us, P (mkBest u)) → P (List.foldl bestStep init us) := by
  intro us
  induction us with
  | nil => intro init h _; exact h
  | cons u us ih =>
    intro init h hu
    simp only [List.foldl_cons]
    apply ih
    · rcases bestStep_cases init u with h1 | h1 <;> rw [h1]
      · exact h
      · exact hu u (by simp)
    · intro v hv; exact hu v (by simp [hv])

theorem foldl_bestStep_stay :
    ∀ (us : List (Nat × Nat × Nat)) (best : Nat × Nat × Nat),
      (∀ u ∈ us, u.2.2 ≤ best.2.2) → List.foldl bestStep best us = best := by
  intro us
  induction us with
  | nil => intro best _; rfl
  | cons u us ih =>
    intro best h
    simp only [List.foldl_cons]
    have hu : u.2.2 ≤ best.2.2 := h u (by simp)
    have : bestStep best u = best := by unfold bestStep; rw [if_neg (by omega)]
    rw [this]
    exact ih best fun v hv => h v (by simp [hv])

theorem le_bestStep_left (best u : Nat × Nat × Nat) :
    best.2.2 ≤ (bestStep best u).2.2 := by
  unfold bestStep
  split
  · rename_i h
    show best.2.2 ≤ u.2.2
    omega
  · exact le_rfl

theorem le_bestStep_right (best u : Nat × Nat × Nat) :
    u.2.2 ≤ (bestStep best u).2.2 := by
  unfold bestStep
  split
  · exact le_rfl
  · rename_i h
    omega

theorem foldl_bestStep_init_le :
    ∀ (us : List (Nat × Nat × Nat)) (init : Nat × Nat × Nat),
      init.2.2 ≤ (List.foldl bestStep init us).2.2 := by
  intro us
  induction us with
  | nil => intro _; exact le_rfl
  | cons u us ih =>
    intro init
    simp only [List.foldl_cons]
    exact le_trans (le_bestStep_left init u) (ih _)

theorem foldl_bestStep_le :
    ∀ (us : List (Nat × Nat × Nat)) (init : Nat × Nat × Nat) (u : Nat × Nat × Nat),
      u ∈ us → u.2.2 ≤ (List.foldl bestStep init us).2.2 := by
  intro us
  induction us with
  | nil => intro _ _ h; cases h
  | cons v us ih =>
    intro init u hu
    simp only [List.foldl_cons]
    rcases List.mem_cons.mp hu with h | h
    · subst h
      exact le_trans (le_bestStep_right init u) (foldl_bestStep_init_le us _)
    · exact ih _ u h

theorem foldl_bestStep_size_cases :
    ∀ (us : List (Nat × Nat × Nat)) (init : Nat × Nat × Nat),
      (List.foldl bestStep init us).2.2 = init.2.2 ∨
        ∃ u ∈ us, (List.foldl bestStep init us).2.2 = u.2.2 := by
  intro us
  induction us with
  | nil => intro init; left; rfl
  | cons u us ih =>
    intro init
    simp only [List.foldl_cons]
    rcases ih (bestStep init u) with h | ⟨v, hv, h⟩
    · rcases bestStep_cases init u with hbs | hbs
      · rw [hbs] at h
        left; rw [hbs]; exact h
      · rw [hbs] at h
        right
        exact ⟨u, by simp, by rw [hbs, h]; rfl⟩
    · right; exact ⟨v, by simp [hv], h⟩

/-- The fold installs the scan-first update of maximal size. -/
theorem foldl_bestStep_first :
    ∀ (us : List (Nat × Nat × Nat)) (init u0 : Nat × Nat × Nat) (K : Nat),
      init.2.2 < K → (∀ u ∈ us, u.2.2 ≤ K) →
      us.find? (fun u => decide (K ≤ u.2.2)) = some u0 →
      List.foldl bestStep init us = mkBest u0 := by
  intro us
  induction us with
  | nil => intro init u0 K _ _ h; cases h
  | cons u us ih =>
    intro init u0 K hK hle hfind
    by_cases hp : K ≤ u.2.2
    · rw [List.find?_cons_of_pos _ (by simpa using hp)] at hfind
      cases hfind
      have hu : u.2.2 = K := le_antisymm (hle u (by simp)) hp
      simp only [List.foldl_cons]
      have hstep : bestStep init u = mkBest u := by
        unfold bestStep mkBest; rw [if_pos (by omega)]
      rw [hstep]
      apply foldl_bestStep_stay
      intro v hv
      have : v.2.2 ≤ K := hle v (by simp [hv])
      have : (mkBest u).2.2 = u.2.2 := rfl
      omega
    · rw [List.find?_cons_of_neg _ (by simpa using hp)] at hfind
      simp only [List.foldl_cons]
      apply ih _ u0 K _ (fun v hv => hle v (by simp [hv])) hfind
      rcases bestStep_cases init u with h1 | h1 <;> rw [h1]
      · exact hK
      · have : (mkBest u).2.2 = u.2.2 := rfl
        omega

/-- Characterisation of the inner DP loop on a sorted position chain: it
writes the in-window cells and folds the best update over them in scan
order. -/
theorem flmInner_char (i : Nat) (prev : Nat → Nat) :
    ∀ (js : List Nat), js.Pairwise (· < ·) → ∀ (new : Nat → Nat) (best : Nat × Nat × Nat),
      flmInner i blo bhi prev js new best =
        (fun j => if j ∈ js ∧ blo ≤ j ∧ j < bhi then (if j = 0 then 0 else prev (j - 1)) + 1
            else new j,
         List.foldl bestStep best
           ((js.filter fun j => decide (blo ≤ j) && decide (j < bhi)).map
             fun j => (i, j, (if j = 0 then 0 else prev (j - 1)) + 1))) := by
  intro js
  induction js with
  | nil =>
    intro _ new best
    simp only [flmInner, List.filter_nil, List.map_nil, List.foldl_nil]
    refine Prod.ext ?_ rfl
    funext j
    simp
  | cons j js ih =>
    intro hsort new best
    obtain ⟨hhead, htail⟩ := List.pairwise_cons.mp hsort
    have hnotmem : j ∉ js := fun hmem => lt_irrefl j (hhead j hmem)
    by_cases hjlo : j < blo
    · have hL : flmInner i blo bhi prev (j :: js) new best
          = flmInner i blo bhi prev js new best := by
        simp only [flmInner, if_pos hjlo]
      have hfil : (j :: js).filter (fun x => decide (blo ≤ x) && decide (x < bhi))
          = js.filter (fun x => decide (blo ≤ x) && decide (x < bhi)) := by
        have hp : (decide (blo ≤ j) && decide (j < bhi)) = false := by
          simp; omega
        simp [List.filter_cons, hp]
      rw [hL, ih htail new best, hfil]
      refine Prod.ext ?_ rfl
      funext j'
      by_cases hj' : j' = j
      · subst hj'
        have h1 : ¬ (blo ≤ j') := by omega
        simp [h1, hnotmem]
      · simp [List.mem_cons, hj']
    · by_cases hjhi : bhi ≤ j
      · have hL : flmInner i blo bhi prev (j :: js) new best = (new, best) := by
          simp only [flmInner, if_neg hjlo, if_pos hjhi]
        have hfil : (j :: js).filter (fun x => decide (blo ≤ x) && decide (x < bhi)) = [] := by
          rw [List.filter_eq_nil_iff]
          intro x hx
          rcases List.mem_cons.mp hx with h | h
          · subst h; simp; omega
          · have := hhead x h; simp; omega
        rw [hL, hfil]
        simp only [List.map_nil, List.foldl_nil]
        refine Prod.ext ?_ rfl
        funext j'
        by_cases hj' : j' ∈ j :: js
        · rcases List.mem_cons.mp hj' with h | h
          · subst h
            have h2 : ¬ (j' < bhi) := by omega
            simp [h2]
          · have h1 := hhead j' h
            have h2 : ¬ (j' < bhi) := by omega
            simp [h2]
        · simp [hj']
      · have hL : flmInner i blo bhi prev (j :: js) new best =
            flmInner i blo bhi prev js
              (fun j' => if j' = j then (if j = 0 then 0 else prev (j - 1)) + 1 else new j')
              (bestStep best (i, j, (if j = 0 then 0 else prev (j - 1)) + 1)) := by
          simp only [flmInner, if_neg hjlo, if_neg hjhi]
          rfl
        have hfil : (j :: js).filter (fun x => decide (blo ≤ x) && decide (x < bhi))
            = j :: js.filter (fun x => decide (blo ≤ x) && decide (x < bhi)) := by
          have hp : (decide (blo ≤ j) && decide (j < bhi)) = true := by
            simp; omega
          simp [List.filter_cons, hp]
        rw [hL, ih htail _ _, hfil]
        simp only [List.map_cons, List.foldl_cons]
        refine Prod.ext ?_ rfl
        funext j'
        by_cases hj' : j' = j
        · subst hj'
          have h1 : blo ≤ j' := by omega
          have h2 : j' < bhi := by omega
          simp [hnotmem, h1, h2]
        · simp [List.mem_cons, hj']

/-- The zero row the outer loop starts from satisfies the recurrence for
the first processed row. -/
theorem prevRowOk_init : prevRowOk a b alo blo bhi alo (fun _ => 0) := by
  intro j hc
  have h1 : flmVal a b alo blo bhi alo j = 1 := by
    cases halo : alo with
    | zero =>
      rw [halo] at hc
      simp [flmVal, hc]
    | succ i' =>
      cases j with
      | zero =>
        rw [halo] at hc
        simp [flmVal, hc]
      | succ j' =>
        rw [halo] at hc
        have hz : flmVal a b (i' + 1) blo bhi i' j' = 0 := by
          apply flmVal_zero_of_not_cond
          intro hcc
          exact absurd hcc.1 (by omega)
        simp [flmVal, hc, hz]
  rw [h1]
  split <;> rfl

/-- The row the inner loop writes satisfies the recurrence for the next
row. -/
theorem prevRowOk_step (i : Nat) :
    prevRowOk a b alo blo bhi (i + 1) (fun j => flmVal a b alo blo bhi i j) := by
  intro j hc
  cases j with
  | zero => simp [flmVal, hc]
  | succ j' => simp [flmVal, hc]

theorem rowFun_eq {i : Nat} (prev : Nat → Nat) (hprev : prevRowOk a b alo blo bhi i prev)
    (hi : alo ≤ i) :
    (fun j => if j ∈ b2jFn b (a.getD i ' ') ∧ blo ≤ j ∧ j < bhi
        then (if j = 0 then 0 else prev (j - 1)) + 1 else (fun _ => (0 : Nat)) j)
      = fun j => flmVal a b alo blo bhi i j := by
  funext j
  by_cases hc : j ∈ b2jFn b (a.getD i ' ') ∧ blo ≤ j ∧ j < bhi
  · have hcond : flmCellCond a b alo blo bhi i j := ⟨hi, hc.2.1, hc.2.2, hc.1⟩
    rw [if_pos hc, hprev j hcond]
  · rw [if_neg hc]
    symm
    apply flmVal_zero_of_not_cond
    intro hcond
    exact hc ⟨hcond.2.2.2, hcond.2.1, hcond.2.2.1⟩

theorem rowCells_eq {i : Nat} (prev : Nat → Nat) (hprev : prevRowOk a b alo blo bhi i prev)
    (hi : alo ≤ i) :
    ((b2jFn b (a.getD i ' ')).filter fun j => decide (blo ≤ j) && decide (j < bhi)).map
        (fun j => ((i, j, (if j = 0 then 0 else prev (j - 1)) + 1) : Nat × Nat × Nat))
      = ((b2jFn b (a.getD i ' ')).filter fun j => decide (blo ≤ j) && decide (j < bhi)).map
        (fun j => (i, j, flmVal a b alo blo bhi i j)) := by
  apply List.map_congr_left
  intro j hj
  have hmem : j ∈ b2jFn b (a.getD i ' ') := List.mem_of_mem_filter hj
  have hP : blo ≤ j ∧ j < bhi := by
    have := List.of_mem_filter hj
    simpa using this
  have hcond : flmCellCond a b alo blo bhi i j := ⟨hi, hP.1, hP.2, hmem⟩
  rw [hprev j hcond]

/-- The outer loop is the best-update fold over the scan-ordered cells with
their DP values. -/
theorem flmOuter_char :
    ∀ (n i0 : Nat) (prev : Nat → Nat) (best : Nat × Nat × Nat),
      alo ≤ i0 → prevRowOk a b alo blo bhi i0 prev →
      flmOuter a b blo bhi (List.range' i0 n) prev best =
        List.foldl bestStep best
          ((List.range' i0 n).flatMap fun i =>
            ((b2jFn b (a.getD i ' ')).filter fun j =>
                decide (blo ≤ j) && decide (j < bhi)).map
              fun j => (i, j, flmVal a b alo blo bhi i j)) := by
  intro n
  induction n with
  | zero => intro i0 prev best _ _; rfl
  | succ n ih =>
    intro i0 prev best hi0 hprev
    rw [List.range'_succ]
    simp only [flmOuter, List.flatMap_cons, List.foldl_append]
    rw [flmInner_char i0 prev _ (b2jFn_pairwise _) _ best]
    rw [rowCells_eq prev hprev hi0, rowFun_eq prev hprev hi0]
    exact ih (i0 + 1) _ _ (by omega) (prevRowOk_step i0)

/-- The DP part of `find_longest_match` as a fold over `flmCells`. -/
theorem flm_dp_eq :
    flmOuter a b blo bhi (List.range' alo (ahi - alo)) (fun _ => 0) (alo, blo, 0)
      = List.foldl bestStep (alo, blo, 0) (flmCells a b alo ahi blo bhi) :=
  flmOuter_char (ahi - alo) alo _ _ le_rfl prevRowOk_init

theorem mem_flmCells {u : Nat × Nat × Nat} (hu : u ∈ flmCells a b alo ahi blo bhi) :
    alo ≤ u.1 ∧ u.1 < ahi ∧ blo ≤ u.2.1 ∧ u.2.1 < bhi ∧
      u.2.2 = flmVal a b alo blo bhi u.1 u.2.1 ∧ flmCellCond a b alo blo bhi u.1 u.2.1 := by
  unfold flmCells at hu
  simp only [List.mem_flatMap, List.mem_map, List.mem_filter] at hu
  obtain ⟨i, hi, j, ⟨hjmem, hjP⟩, rfl⟩ := hu
  obtain ⟨t, ht, rfl⟩ := List.mem_range'.mp hi
  have hP : blo ≤ j ∧ j < bhi := by simpa using hjP
  refine ⟨by omega, by omega, hP.1, hP.2, rfl, ⟨by omega, hP.1, hP.2, hjmem⟩⟩

theorem flmCells_mem_of_cond {i j : Nat} (hi : i < ahi)
    (hc : flmCellCond a b alo blo bhi i j) :
    (i, j, flmVal a b alo blo bhi i j) ∈ flmCells a b alo ahi blo bhi := by
  unfold flmCells
  simp only [List.mem_flatMap, List.mem_map, List.mem_filter]
  refine ⟨i, ?_, j, ⟨hc.2.2.2, ?_⟩, rfl⟩
  · have h0 := hc.1
    apply List.mem_range'.mpr
    refine ⟨i - alo, by omega, by omega⟩
  · have h1 := hc.2.1
    have h2 := hc.2.2.1
    simp
    omega

/-- The cell list is strictly increasing in scan (lexicographic) order. -/
theorem flmCells_pairwise :
    (flmCells a b alo ahi blo bhi).Pairwise
      (fun u v => u.1 < v.1 ∨ (u.1 = v.1 ∧ u.2.1 < v.2.1)) := by
  unfold flmCells
  rw [List.pairwise_flatMap]
  constructor
  · intro i _
    rw [List.pairwise_map]
    have hs := (b2jFn_pairwise (b := b) (a.getD i ' ')).filter
      (fun j => decide (blo ≤ j) && decide (j < bhi))
    exact hs.imp fun h => Or.inr ⟨rfl, h⟩
  · have hrows := List.pairwise_lt_range' alo (ahi - alo)
    refine hrows.imp ?_
    intro i i' h u hu v hv
    simp only [List.mem_map] at hu hv
    obtain ⟨j, -, rfl⟩ := hu
    obtain ⟨j', -, rfl⟩ := hv
    exact Or.inl h

/-- An element `find?` returns is minimal, in a `Pairwise`-ordered list,
among the elements satisfying the predicate. -/
theorem find?_min {α : Type} {R : α → α → Prop} :
    ∀ {l : List α} {p : α → Bool} {u : α},
      l.Pairwise R → l.find? p = some u → ∀ v ∈ l, p v → u = v ∨ R u v := by
  intro l
  induction l with
  | nil => intro p u _ hfind; cases hfind
  | cons x xs ih =>
    intro p u hl hfind v hv hpv
    by_cases hpx : p x
    · rw [List.find?_cons_of_pos _ hpx] at hfind
      cases hfind
      rcases List.mem_cons.mp hv with h | h
      · left; exact h.symm
      · right; exact (List.pairwise_cons.mp hl).1 v h
    · rw [List.find?_cons_of_neg _ hpx] at hfind
      rcases List.mem_cons.mp hv with h | h
      · subst h; exact absurd hpv hpx
      · exact ih (List.pairwise_cons.mp hl).2 hfind v h hpv

theorem soundBest_mk_of_cell {u : Nat × Nat × Nat}
    (hu : u ∈ flmCells a b alo ahi blo bhi) :
    SoundBest a b alo ahi blo bhi (mkBest u) := by
  obtain ⟨h1, h2, h3, h4, h5, h6⟩ := mem_flmCells hu
  show 1 ≤ u.2.2 → _
  intro hk'
  obtain ⟨hle1, hle2⟩ :=
    @flmVal_le a b alo blo bhi u.1 u.2.1
  rw [← h5] at hle1 hle2
  refine ⟨by omega, by omega, by omega, by omega, ?_⟩
  intro t ht
  obtain ⟨hcond, -⟩ :=
    flmVal_chain (a := a) (b := b) h5.symm (u.2.2 - 1 - t) (by omega)
  have heq : b.getD (u.2.1 - (u.2.2 - 1 - t)) ' '
      = a.getD (u.1 - (u.2.2 - 1 - t)) ' ' :=
    (mem_b2jFn.mp hcond.2.2.2).2.2
  have e1 : u.1 + 1 - u.2.2 + t = u.1 - (u.2.2 - 1 - t) := by omega
  have e2 : u.2.1 + 1 - u.2.2 + t = u.2.1 - (u.2.2 - 1 - t) := by omega
  rw [e1, e2]
  exact heq.symm

theorem dp_best_sound :
    SoundBest a b alo ahi blo bhi
      (List.foldl bestStep (alo, blo, 0) (flmCells a b alo ahi blo bhi)) := by
  apply foldl_bestStep_preserve
  · intro h
    omega
  · intro u hu
    exact soundBest_mk_of_cell hu

theorem dp_best_zero
    (h : (List.foldl bestStep (alo, blo, 0) (flmCells a b alo ahi blo bhi)).2.2 = 0) :
    List.foldl bestStep (alo, blo, 0) (flmCells a b alo ahi blo bhi) = (alo, blo, 0) := by
  have hP := foldl_bestStep_preserve (P := fun p => p = (alo, blo, 0) ∨ 1 ≤ p.2.2)
    (flmCells a b alo ahi blo bhi) (alo, blo, 0) (Or.inl rfl) ?_
  · rcases hP with h1 | h1
    · exact h1
    · omega
  · intro u hu
    right
    obtain ⟨-, -, -, -, h5, h6⟩ := mem_flmCells hu
    have := flmVal_pos_of_cond h6
    show 1 ≤ u.2.2
    omega

theorem extendBackGo_size (junkVal : Bool) :
    ∀ besti bestj bestsize : Nat,
      bestsize ≤ (extendBackGo a b junkVal alo blo besti bestj bestsize).2.2 := by
  intro besti
  induction besti with
  | zero =>
    intro bestj bestsize
    exact le_rfl
  | succ besti ih =>
    intro bestj bestsize
    simp only [extendBackGo]
    split
    · exact le_trans (by omega) (ih (bestj - 1) (bestsize + 1))
    · exact le_rfl

theorem extendBack_size (junkVal : Bool) (p : Nat × Nat × Nat) :
    p.2.2 ≤ (extendBack a b junkVal alo blo p).2.2 :=
  extendBackGo_size junkVal p.1 p.2.1 p.2.2

theorem extendFwdGo_size (junkVal : Bool) (besti bestj : Nat) :
    ∀ fuel s : Nat, s ≤ extendFwdGo a b junkVal ahi bhi besti bestj fuel s := by
  intro fuel
  induction fuel with
  | zero =>
    intro s
    exact le_rfl
  | succ fuel ih =>
    intro s
    simp only [extendFwdGo]
    split
    · exact le_trans (by omega) (ih (s + 1))
    · exact le_rfl

theorem extendFwd_size (junkVal : Bool) (besti bestj s : Nat) :
    s ≤ extendFwd a b junkVal ahi bhi besti bestj s :=
  extendFwdGo_size junkVal besti bestj (ahi - (besti + s)) s

/-- `extendBackGo` preserves soundness (together with the origin property
of the trivial best). -/
theorem extendBackGo_sound (junkVal : Bool) :
    ∀ besti bestj bestsize : Nat,
      (SoundBest a b alo ahi blo bhi (besti, bestj, bestsize) ∧
        (bestsize = 0 → besti = alo ∧ bestj = blo)) →
      SoundBest a b alo ahi blo bhi
          (extendBackGo a b junkVal alo blo besti bestj bestsize) ∧
        ((extendBackGo a b junkVal alo blo besti bestj bestsize).2.2 = 0 →
          (extendBackGo a b junkVal alo blo besti bestj bestsize).1 = alo ∧
          (extendBackGo a b junkVal alo blo besti bestj bestsize).2.1 = blo) := by
  intro besti
  induction besti with
  | zero =>
    intro bestj bestsize hp
    simpa only [extendBackGo] using hp
  | succ besti ih =>
    intro bestj bestsize hp
    simp only [extendBackGo]
    split
    · rename_i h
      apply ih
      obtain ⟨hS, hZ⟩ := hp
      replace hS : 1 ≤ bestsize → alo ≤ besti + 1 ∧ besti + 1 + bestsize ≤ ahi ∧
          blo ≤ bestj ∧ bestj + bestsize ≤ bhi ∧
          ∀ t < bestsize, a.getD (besti + 1 + t) ' ' = b.getD (bestj + t) ' ' := hS
      replace hZ : bestsize = 0 → besti + 1 = alo ∧ bestj = blo := hZ
      have halo : alo < besti + 1 := h.1
      have hblo : blo < bestj := h.2.1
      have hsz : 1 ≤ bestsize := by
        by_contra hc
        obtain ⟨e1, e2⟩ := hZ (by omega)
        omega
      obtain ⟨s1, s2, s3, s4, s5⟩ := hS hsz
      constructor
      · show 1 ≤ bestsize + 1 → _
        intro _
        refine ⟨by omega, by omega, by omega, by omega, ?_⟩
        intro t ht
        match t with
        | 0 =>
          simpa using h.2.2.2
        | t + 1 =>
          have e1 : besti + (t + 1) = besti + 1 + t := by omega
          have e2 : bestj - 1 + (t + 1) = bestj + t := by omega
          rw [e1, e2]
          exact s5 t (by omega)
      · intro h0
        have h0' : bestsize + 1 = 0 := h0
        omega
    · exact hp

/-- `extendBack` preserves soundness (together with the origin property of
the trivial best). -/
theorem extendBack_sound (junkVal : Bool) (p : Nat × Nat × Nat)
    (hp : SoundBest a b alo ahi blo bhi p ∧ (p.2.2 = 0 → p.1 = alo ∧ p.2.1 = blo)) :
    SoundBest a b alo ahi blo bhi (extendBack a b junkVal alo blo p) ∧
      ((extendBack a b junkVal alo blo p).2.2 = 0 →
        (extendBack a b junkVal alo blo p).1 = alo ∧
        (extendBack a b junkVal alo blo p).2.1 = blo) :=
  extendBackGo_sound junkVal p.1 p.2.1 p.2.2 hp

/-- `extendFwdGo` preserves soundness of the tuple it extends. -/
theorem extendFwdGo_sound (junkVal : Bool) (besti bestj : Nat) :
    ∀ fuel s : Nat,
      (SoundBest a b alo ahi blo bhi (besti, bestj, s) ∧
        (s = 0 → besti = alo ∧ bestj = blo)) →
      SoundBest a b alo ahi blo bhi
          (besti, bestj, extendFwdGo a b junkVal ahi bhi besti bestj fuel s) ∧
        (extendFwdGo a b junkVal ahi bhi besti bestj fuel s = 0 →
          besti = alo ∧ bestj = blo) := by
  intro fuel
  induction fuel with
  | zero =>
    intro s hp
    simpa only [extendFwdGo] using hp
  | succ fuel ih =>
    intro s hp
    simp only [extendFwdGo]
    split
    · rename_i h
      apply ih
      obtain ⟨hS, hZ⟩ := hp
      replace hS : 1 ≤ s → alo ≤ besti ∧ besti + s ≤ ahi ∧ blo ≤ bestj ∧
          bestj + s ≤ bhi ∧
          ∀ t < s, a.getD (besti + t) ' ' = b.getD (bestj + t) ' ' := hS
      have h1 : besti + s < ahi := h.1
      have h2 : bestj + s < bhi := h.2.1
      constructor
      · show 1 ≤ s + 1 → _
        intro _
        have hbnd : alo ≤ besti ∧ blo ≤ bestj := by
          rcases Nat.eq_zero_or_pos s with h0 | h0
          · obtain ⟨e1, e2⟩ := hZ h0
            omega
          · obtain ⟨s1, -, s3, -, -⟩ := hS (by omega)
            exact ⟨s1, s3⟩
        refine ⟨by omega, by omega, by omega, by omega, ?_⟩
        intro t ht
        rcases Nat.lt_or_ge t s with htlt | htge
        · have hs1 : 1 ≤ s := by omega
          exact (hS hs1).2.2.2.2 t htlt
        · have : t = s := by omega
          subst this
          exact h.2.2.2
      · intro h0
        exact absurd h0 (by omega)
    · exact hp

/-- `extendFwd` preserves soundness of the tuple it extends. -/
theorem extendFwd_sound (junkVal : Bool) (besti bestj s : Nat)
    (hp : SoundBest a b alo ahi blo bhi (besti, bestj, s) ∧
      (s = 0 → besti = alo ∧ bestj = blo)) :
    SoundBest a b alo ahi blo bhi
      (besti, bestj, extendFwd a b junkVal ahi bhi besti bestj s) ∧
      (extendFwd a b junkVal ahi bhi besti bestj s = 0 →
        besti = alo ∧ bestj = blo) :=
  extendFwdGo_sound junkVal besti bestj (ahi - (besti + s)) s hp

/-- Soundness of `find_longest_match`: the returned triple, when
non-trivial, is an in-window block of matching elements. -/
theorem flm_sound :
    SoundBest a b alo ahi blo bhi (find_longest_match a b alo ahi blo bhi) ∧
      ((find_longest_match a b alo ahi blo bhi).2.2 = 0 →
        (find_longest_match a b alo ahi blo bhi).1 = alo ∧
        (find_longest_match a b alo ahi blo bhi).2.1 = blo) := by
  unfold find_longest_match
  rw [flm_dp_eq]
  have h0 : SoundBest a b alo ahi blo bhi
        (List.foldl bestStep (alo, blo, 0) (flmCells a b alo ahi blo bhi)) ∧
      ((List.foldl bestStep (alo, blo, 0) (flmCells a b alo ahi blo bhi)).2.2 = 0 →
        (List.foldl bestStep (alo, blo, 0) (flmCells a b alo ahi blo bhi)).1 = alo ∧
        (List.foldl bestStep (alo, blo, 0) (flmCells a b alo ahi blo bhi)).2.1 = blo) := by
    refine ⟨dp_best_sound, ?_⟩
    intro h
    rw [dp_best_zero h]
    exact ⟨rfl, rfl⟩
  have h1 := extendBack_sound false _ h0
  set b1 := extendBack a b false alo blo
    (List.foldl bestStep (alo, blo, 0) (flmCells a b alo ahi blo bhi)) with hb1
  have hb1e : b1 = (b1.1, b1.2.1, b1.2.2) := rfl
  have h1' : SoundBest a b alo ahi blo bhi (b1.1, b1.2.1, b1.2.2) ∧
      (b1.2.2 = 0 → b1.1 = alo ∧ b1.2.1 = blo) := by
    rw [← hb1e]
    exact h1
  have h2 := extendFwd_sound false b1.1 b1.2.1 b1.2.2 h1'
  have h3 := extendBack_sound true _ h2
  set b3 := extendBack a b true alo blo
    (b1.1, b1.2.1, extendFwd a b false ahi bhi b1.1 b1.2.1 b1.2.2) with hb3
  have hb3e : b3 = (b3.1, b3.2.1, b3.2.2) := rfl
  have h3' : SoundBest a b alo ahi blo bhi (b3.1, b3.2.1, b3.2.2) ∧
      (b3.2.2 = 0 → b3.1 = alo ∧ b3.2.1 = blo) := by
    rw [← hb3e]
    exact h3
  have h4 := extendFwd_sound true b3.1 b3.2.1 b3.2.2 h3'
  exact h4

/-- Component form of `flm_sound`. -/
theorem flm_bounds {alo' ahi' blo' bhi' i j k : Nat}
    (h : find_longest_match a b alo' ahi' blo' bhi' = (i, j, k)) (hk : 1 ≤ k) :
    alo' ≤ i ∧ i + k ≤ ahi' ∧ blo' ≤ j ∧ j + k ≤ bhi' ∧
      ∀ t < k, a.getD (i + t) ' ' = b.getD (j + t) ' ' := by
  have hs := (@flm_sound a b alo' ahi' blo' bhi').1
  rw [h] at hs
  exact hs hk

/-- An empty window always totals zero, whatever the fuel. -/
theorem matchTotalFuel_zero_window :
    ∀ (fuel alo' ahi' blo' bhi' : Nat), ahi' ≤ alo' →
      matchTotalFuel a b fuel alo' ahi' blo' bhi' = 0 := by
  intro fuel alo' ahi' blo' bhi' hle
  match fuel with
  | 0 => rfl
  | fuel + 1 =>
    simp only [matchTotalFuel]
    rcases hflm : find_longest_match a b alo' ahi' blo' bhi' with ⟨i, j, k⟩
    dsimp only
    rcases Nat.eq_zero_or_pos k with h0 | hpos
    · simp [h0]
    · obtain ⟨b1, b2, -, -, -⟩ := flm_bounds hflm hpos
      omega

/-- The fuel does not matter once it covers the window measure. -/
theorem matchTotalFuel_congr :
    ∀ (fuel fuel' alo' ahi' blo' bhi' : Nat),
      (ahi' - alo') + (bhi' - blo') ≤ fuel → (ahi' - alo') + (bhi' - blo') ≤ fuel' →
      matchTotalFuel a b fuel alo' ahi' blo' bhi'
        = matchTotalFuel a b fuel' alo' ahi' blo' bhi' := by
  intro fuel
  induction fuel with
  | zero =>
    intro fuel' alo' ahi' blo' bhi' h1 h2
    have hz : ahi' ≤ alo' := by omega
    rw [matchTotalFuel_zero_window 0 _ _ _ _ hz, matchTotalFuel_zero_window fuel' _ _ _ _ hz]
  | succ fuel ih =>
    intro fuel' alo' ahi' blo' bhi' h1 h2
    match fuel' with
    | 0 =>
      have hz : ahi' ≤ alo' := by omega
      rw [matchTotalFuel_zero_window (fuel + 1) _ _ _ _ hz,
        matchTotalFuel_zero_window 0 _ _ _ _ hz]
    | fuel' + 1 =>
      simp only [matchTotalFuel]
      rcases hflm : find_longest_match a b alo' ahi' blo' bhi' with ⟨i, j, k⟩
      dsimp only
      rcases Nat.eq_zero_or_pos k with h0 | hpos
      · simp [h0]
      · obtain ⟨b1, b2, b3, b4, -⟩ := flm_bounds hflm hpos
        rw [if_neg (show ¬ (k = 0) by omega)]
        rw [if_neg (show ¬ (k = 0) by omega)]
        have eL : (if alo' < i ∧ blo' < j then matchTotalFuel a b fuel alo' i blo' j else 0)
            = (if alo' < i ∧ blo' < j then matchTotalFuel a b fuel' alo' i blo' j else 0) := by
          by_cases hL : alo' < i ∧ blo' < j
          · rw [if_pos hL, if_pos hL]
            exact ih fuel' alo' i blo' j (by omega) (by omega)
          · rw [if_neg hL, if_neg hL]
        have eR : (if i + k < ahi' ∧ j + k < bhi'
              then matchTotalFuel a b fuel (i + k) ahi' (j + k) bhi' else 0)
            = (if i + k < ahi' ∧ j + k < bhi'
              then matchTotalFuel a b fuel' (i + k) ahi' (j + k) bhi' else 0) := by
          by_cases hR : i + k < ahi' ∧ j + k < bhi'
          · rw [if_pos hR, if_pos hR]
            exact ih fuel' (i + k) ahi' (j + k) bhi' (by omega) (by omega)
          · rw [if_neg hR, if_neg hR]
        rw [eL, eR]

/-- One-step unfolding of `matchTotal` as the window split around the
longest match. -/
theorem matchTotal_eq (alo' ahi' blo' bhi' : Nat) :
    matchTotal a b alo' ahi' blo' bhi' =
      (match find_longest_match a b alo' ahi' blo' bhi' with
       | (i, j, k) =>
        if k = 0 then 0
        else
          (if alo' < i ∧ blo' < j then matchTotal a b alo' i blo' j else 0) + k +
          (if i + k < ahi' ∧ j + k < bhi' then matchTotal a b (i + k) ahi' (j + k) bhi'
           else 0)) := by
  unfold matchTotal
  rcases hM : (ahi' - alo') + (bhi' - blo') with _ | M
  · rw [matchTotalFuel_zero_window 0 _ _ _ _ (by omega)]
    rcases hflm : find_longest_match a b alo' ahi' blo' bhi' with ⟨i, j, k⟩
    dsimp only
    rcases Nat.eq_zero_or_pos k with h0 | hpos
    · simp [h0]
    · obtain ⟨b1, b2, -, -, -⟩ := flm_bounds hflm hpos
      omega
  · simp only [matchTotalFuel]
    rcases hflm : find_longest_match a b alo' ahi' blo' bhi' with ⟨i, j, k⟩
    dsimp only
    rcases Nat.eq_zero_or_pos k with h0 | hpos
    · simp [h0]
    · obtain ⟨b1, b2, b3, b4, -⟩ := flm_bounds hflm hpos
      rw [if_neg (show ¬ (k = 0) by omega)]
      rw [if_neg (show ¬ (k = 0) by omega)]
      have eL : (if alo' < i ∧ blo' < j then matchTotalFuel a b M alo' i blo' j else 0)
          = (if alo' < i ∧ blo' < j then matchTotal a b alo' i blo' j else 0) := by
        by_cases hL : alo' < i ∧ blo' < j
        · rw [if_pos hL, if_pos hL]
          exact matchTotalFuel_congr M ((i - alo') + (j - blo')) alo' i blo' j
            (by omega) (by omega)
        · rw [if_neg hL, if_neg hL]
      have eR : (if i + k < ahi' ∧ j + k < bhi'
            then matchTotalFuel a b M (i + k) ahi' (j + k) bhi' else 0)
          = (if i + k < ahi' ∧ j + k < bhi'
            then matchTotal a b (i + k) ahi' (j + k) bhi' else 0) := by
        by_cases hR : i + k < ahi' ∧ j + k < bhi'
        · rw [if_pos hR, if_pos hR]
          exact matchTotalFuel_congr M ((ahi' - (i + k)) + (bhi' - (j + k)))
            (i + k) ahi' (j + k) bhi' (by omega) (by omega)
        · rw [if_neg hR, if_neg hR]
      rw [eL, eR]
      have hrfl1 : matchTotalFuel a b (i - alo' + (j - blo')) alo' i blo' j
          = matchTotal a b alo' i blo' j := rfl
      have hrfl2 : matchTotalFuel a b (ahi' - (i + k) + (bhi' - (j + k)))
            (i + k) ahi' (j + k) bhi'
          = matchTotal a b (i + k) ahi' (j + k) bhi' := rfl
      rw [hrfl1, hrfl2]

/-- The total matched size never exceeds either window width. -/
theorem matchTotal_le_aux :
    ∀ (M alo' ahi' blo' bhi' : Nat), (ahi' - alo') + (bhi' - blo') ≤ M →
      matchTotal a b alo' ahi' blo' bhi' ≤ ahi' - alo' ∧
      matchTotal a b alo' ahi' blo' bhi' ≤ bhi' - blo' := by
  intro M
  induction M with
  | zero =>
    intro alo' ahi' blo' bhi' h
    rw [matchTotal_eq]
    rcases hflm : find_longest_match a b alo' ahi' blo' bhi' with ⟨i, j, k⟩
    dsimp only
    rcases Nat.eq_zero_or_pos k with h0 | hpos
    · simp [h0]
    · obtain ⟨b1, b2, -, -, -⟩ := flm_bounds hflm hpos
      omega
  | succ M ih =>
    intro alo' ahi' blo' bhi' h
    rw [matchTotal_eq]
    rcases hflm : find_longest_match a b alo' ahi' blo' bhi' with ⟨i, j, k⟩
    dsimp only
    rcases Nat.eq_zero_or_pos k with h0 | hpos
    · simp [h0]
    · obtain ⟨b1, b2, b3, b4, -⟩ := flm_bounds hflm hpos
      rw [if_neg (show ¬ (k = 0) by omega)]
      have hLv : (if alo' < i ∧ blo' < j then matchTotal a b alo' i blo' j else 0)
          ≤ i - alo' ∧
          (if alo' < i ∧ blo' < j then matchTotal a b alo' i blo' j else 0) ≤ j - blo' := by
        by_cases hL : alo' < i ∧ blo' < j
        · rw [if_pos hL]
          exact ih alo' i blo' j (by omega)
        · rw [if_neg hL]
          omega
      have hRv : (if i + k < ahi' ∧ j + k < bhi'
            then matchTotal a b (i + k) ahi' (j + k) bhi' else 0) ≤ ahi' - (i + k) ∧
          (if i + k < ahi' ∧ j + k < bhi'
            then matchTotal a b (i + k) ahi' (j + k) bhi' else 0) ≤ bhi' - (j + k) := by
        by_cases hR : i + k < ahi' ∧ j + k < bhi'
        · rw [if_pos hR]
          exact ih (i + k) ahi' (j + k) bhi' (by omega)
        · rw [if_neg hR]
          omega
      omega

theorem matchTotal_le (alo' ahi' blo' bhi' : Nat) :
    matchTotal a b alo' ahi' blo' bhi' ≤ ahi' - alo' ∧
      matchTotal a b alo' ahi' blo' bhi' ≤ bhi' - blo' :=
  matchTotal_le_aux ((ahi' - alo') + (bhi' - blo')) alo' ahi' blo' bhi' le_rfl

/-- Diagonal transfer of a cell condition to its column. -/
theorem flmCellCond_diag_col {i j : Nat} (hc : flmCellCond b b alo alo bhi i j) :
    flmCellCond b b alo alo bhi j j := by
  obtain ⟨h1, h2, h3, h4⟩ := hc
  obtain ⟨hpop, hlen, heq⟩ := mem_b2jFn.mp h4
  refine ⟨h2, h2, h3, mem_b2jFn.mpr ⟨?_, hlen, rfl⟩⟩
  rw [heq]
  exact hpop

/-- Diagonal transfer of a cell condition to its row. -/
theorem flmCellCond_diag_row {i j : Nat} (hc : flmCellCond b b alo alo bhi i j)
    (hib : i < bhi) (hilen : i < b.length) :
    flmCellCond b b alo alo bhi i i := by
  obtain ⟨h1, h2, h3, h4⟩ := hc
  obtain ⟨hpop, hlen, heq⟩ := mem_b2jFn.mp h4
  exact ⟨h1, h1, hib, mem_b2jFn.mpr ⟨hpop, hilen, rfl⟩⟩

/-- On a self-comparison, the chain value of any cell is reached by the
diagonal cell of its column. -/
theorem flmVal_diag_right :
    ∀ {i j m : Nat}, flmVal b b alo alo bhi i j = m → m ≤ flmVal b b alo alo bhi j j := by
  intro i
  induction i with
  | zero =>
    intro j m h
    simp only [flmVal] at h
    split at h <;> rename_i hc
    · subst h
      exact flmVal_pos_of_cond (flmCellCond_diag_col hc)
    · omega
  | succ i ih =>
    intro j m h
    match j with
    | 0 =>
      simp only [flmVal] at h
      split at h <;> rename_i hc
      · subst h
        exact flmVal_pos_of_cond (flmCellCond_diag_col hc)
      · omega
    | j + 1 =>
      simp only [flmVal] at h
      split at h <;> rename_i hc
      · have hcd := flmCellCond_diag_col hc
        have hih := ih (j := j) (m := flmVal b b alo alo bhi i j) rfl
        have hstep : flmVal b b alo alo bhi (j + 1) (j + 1)
            = flmVal b b alo alo bhi j j + 1 := by
          simp only [flmVal, if_pos hcd]
        omega
      · omega

/-- On a self-comparison, the chain value of any cell is reached by the
diagonal cell of its row. -/
theorem flmVal_diag_left :
    ∀ {i j m : Nat}, i < bhi → i < b.length →
      flmVal b b alo alo bhi i j = m → m ≤ flmVal b b alo alo bhi i i := by
  intro i
  induction i with
  | zero =>
    intro j m hb hl h
    simp only [flmVal] at h
    split at h <;> rename_i hc
    · subst h
      exact flmVal_pos_of_cond (flmCellCond_diag_row hc hb hl)
    · omega
  | succ i ih =>
    intro j m hb hl h
    match j with
    | 0 =>
      simp only [flmVal] at h
      split at h <;> rename_i hc
      · subst h
        exact flmVal_pos_of_cond (flmCellCond_diag_row hc hb hl)
      · omega
    | j + 1 =>
      simp only [flmVal] at h
      split at h <;> rename_i hc
      · have hcd := flmCellCond_diag_row hc hb hl
        have hih := ih (j := j) (m := flmVal b b alo alo bhi i j) (by omega) (by omega) rfl
        have hstep : flmVal b b alo alo bhi (i + 1) (i + 1)
            = flmVal b b alo alo bhi i i + 1 := by
          simp only [flmVal, if_pos hcd]
        omega
      · omega

/-- On a self-comparison, the DP fold lands on a diagonal best block. -/
theorem dp_best_diag (hlen : ahi ≤ b.length) :
    (List.foldl bestStep (alo, alo, 0) (flmCells b b alo ahi alo ahi)).1
      = (List.foldl bestStep (alo, alo, 0) (flmCells b b alo ahi alo ahi)).2.1 := by
  rcases Nat.eq_zero_or_pos
      (List.foldl bestStep (alo, alo, 0) (flmCells b b alo ahi alo ahi)).2.2 with h0 | hpos
  · rw [dp_best_zero h0]
  · rcases foldl_bestStep_size_cases (flmCells b b alo ahi alo ahi) (alo, alo, 0)
      with hc | ⟨u, hu, hc⟩
    · have hz : ((alo, alo, 0) : Nat × Nat × Nat).2.2 = 0 := rfl
      omega
    · have hKle : ∀ v ∈ flmCells b b alo ahi alo ahi,
          v.2.2 ≤ (List.foldl bestStep (alo, alo, 0) (flmCells b b alo ahi alo ahi)).2.2 :=
        fun v hv => foldl_bestStep_le _ _ v hv
      have hfind : ((flmCells b b alo ahi alo ahi).find? fun v =>
          decide ((List.foldl bestStep (alo, alo, 0) (flmCells b b alo ahi alo ahi)).2.2
            ≤ v.2.2)).isSome := by
        rw [List.find?_isSome]
        exact ⟨u, hu, by simp; omega⟩
      obtain ⟨u0, hu0⟩ := Option.isSome_iff_exists.mp hfind
      have hu0p : (List.foldl bestStep (alo, alo, 0) (flmCells b b alo ahi alo ahi)).2.2
          ≤ u0.2.2 := by
        have := List.find?_some hu0
        simpa using this
      have hu0mem : u0 ∈ flmCells b b alo ahi alo ahi := List.mem_of_find?_eq_some hu0
      have hu0K : u0.2.2
          = (List.foldl bestStep (alo, alo, 0) (flmCells b b alo ahi alo ahi)).2.2 :=
        le_antisymm (hKle u0 hu0mem) hu0p
      have hbest : List.foldl bestStep (alo, alo, 0) (flmCells b b alo ahi alo ahi)
          = mkBest u0 := by
        apply foldl_bestStep_first _ _ u0 _ (by show 0 < _; omega) hKle hu0
      obtain ⟨m1, m2, m3, m4, m5, m6⟩ := mem_flmCells hu0mem
      -- u0 is diagonal
      have hdiag : u0.1 = u0.2.1 := by
        rcases Nat.lt_trichotomy u0.1 u0.2.1 with hlt | heq | hgt
        · -- row < column: the row diagonal cell precedes it with the same value
          exfalso
          have hvle := flmVal_diag_left (i := u0.1) (j := u0.2.1)
            (m := flmVal b b alo alo ahi u0.1 u0.2.1) (by omega) (by omega) rfl
          have hcond : flmCellCond b b alo alo ahi u0.1 u0.1 :=
            flmCellCond_diag_row m6 (by omega) (by omega)
          have hmm : ((u0.1, u0.1, flmVal b b alo alo ahi u0.1 u0.1) : Nat × Nat × Nat)
              ∈ flmCells b b alo ahi alo ahi := flmCells_mem_of_cond (by omega) hcond
          have hvK := hKle _ hmm
          have hfm := find?_min flmCells_pairwise hu0
            (u0.1, u0.1, flmVal b b alo alo ahi u0.1 u0.1) hmm (by simp; omega)
          rcases hfm with he | hr
          · have : u0.2.1 = u0.1 := by
              have := congrArg (fun p => p.2.1) he
              simpa using this
            omega
          · rcases hr with h1 | ⟨h1, h2⟩
            · have h1' : u0.1 < u0.1 := h1
              omega
            · have h2' : u0.2.1 < u0.1 := h2
              omega
        · exact heq
        · -- column < row: the column diagonal cell precedes it
          exfalso
          have hvle := flmVal_diag_right (i := u0.1) (j := u0.2.1)
            (m := flmVal b b alo alo ahi u0.1 u0.2.1) rfl
          have hcond : flmCellCond b b alo alo ahi u0.2.1 u0.2.1 :=
            flmCellCond_diag_col m6
          have hmm : ((u0.2.1, u0.2.1, flmVal b b alo alo ahi u0.2.1 u0.2.1) : Nat × Nat × Nat)
              ∈ flmCells b b alo ahi alo ahi := flmCells_mem_of_cond (by omega) hcond
          have hvK := hKle _ hmm
          have hfm := find?_min flmCells_pairwise hu0
            (u0.2.1, u0.2.1, flmVal b b alo alo ahi u0.2.1 u0.2.1) hmm (by simp; omega)
          rcases hfm with he | hr
          · have : u0.1 = u0.2.1 := by
              have := congrArg (fun p => p.1) he
              simpa using this
            omega
          · rcases hr with h1 | ⟨h1, h2⟩
            · have h1' : u0.1 < u0.2.1 := h1
              omega
            · have h2' : u0.2.1 < u0.2.1 := h2
              omega
      rw [hbest]
      show u0.1 + 1 - u0.2.2 = u0.2.1 + 1 - u0.2.2
      omega

/-- A backward extension loop whose entry bound fails leaves its input
unchanged. -/
theorem extendBackGo_stop (junkVal : Bool) (besti bestj bestsize : Nat)
    (h : ¬ alo < besti) :
    extendBackGo a b junkVal alo blo besti bestj bestsize
      = (besti, bestj, bestsize) := by
  match besti with
  | 0 => rfl
  | besti + 1 =>
    simp only [extendBackGo]
    rw [if_neg (fun hcon => absurd hcon.1 h)]

/-- `extendBackGo` preserves diagonality. -/
theorem extendBackGo_diag (junkVal : Bool) :
    ∀ besti bestj bestsize : Nat, besti = bestj →
      (extendBackGo b b junkVal alo alo besti bestj bestsize).1
        = (extendBackGo b b junkVal alo alo besti bestj bestsize).2.1 := by
  intro besti
  induction besti with
  | zero =>
    intro bestj bestsize hd
    exact hd
  | succ besti ih =>
    intro bestj bestsize hd
    simp only [extendBackGo]
    split
    · apply ih
      omega
    · exact hd

/-- `extendBack` preserves diagonality. -/
theorem extendBack_diag (junkVal : Bool) (p : Nat × Nat × Nat) (hd : p.1 = p.2.1) :
    (extendBack b b junkVal alo alo p).1 = (extendBack b b junkVal alo alo p).2.1 :=
  extendBackGo_diag junkVal p.1 p.2.1 p.2.2 hd

/-- A forward extension loop whose first test passes extends by at least
one element. -/
theorem extendFwd_fire (junkVal : Bool) (besti bestj : Nat)
    (h1 : besti < ahi) (h2 : bestj < bhi)
    (h3 : isPopular b (b.getD bestj ' ') = junkVal)
    (h4 : a.getD besti ' ' = b.getD bestj ' ') :
    1 ≤ extendFwd a b junkVal ahi bhi besti bestj 0 := by
  show 1 ≤ extendFwdGo a b junkVal ahi bhi besti bestj (ahi - (besti + 0)) 0
  rcases hfe : ahi - (besti + 0) with _ | fuel
  · exact absurd hfe (by omega)
  · simp only [extendFwdGo]
    rw [if_pos ⟨by omega, by omega, by simpa using h3, by simpa using h4⟩]
    calc 1 ≤ 0 + 1 := by omega
      _ ≤ _ := extendFwdGo_size junkVal besti bestj fuel 1

/-- On a self-comparison, `find_longest_match` returns a diagonal block,
non-trivial whenever the window is. -/
theorem flm_diag (hlen : ahi ≤ b.length) :
    (find_longest_match b b alo ahi alo ahi).1
        = (find_longest_match b b alo ahi alo ahi).2.1
      ∧ (alo < ahi → 1 ≤ (find_longest_match b b alo ahi alo ahi).2.2) := by
  unfold find_longest_match
  rw [flm_dp_eq]
  rcases hbest : List.foldl bestStep (alo, alo, 0) (flmCells b b alo ahi alo ahi)
    with ⟨bi, bj, bk⟩
  have hdiag : bi = bj := by
    have hd := @dp_best_diag b alo ahi hlen
    rw [hbest] at hd
    exact hd
  subst hdiag
  dsimp only
  rcases hb1 : extendBack b b false alo alo (bi, bi, bk) with ⟨i1, j1, s1⟩
  have hd1 : i1 = j1 := by
    have hd := @extendBack_diag b alo false (bi, bi, bk) rfl
    rw [hb1] at hd
    exact hd
  subst hd1
  dsimp only
  rcases hb3 : extendBack b b true alo alo
      (i1, i1, extendFwd b b false ahi ahi i1 i1 s1) with ⟨i3, j3, s3⟩
  have hd3 : i3 = j3 := by
    have hd := @extendBack_diag b alo true
      (i1, i1, extendFwd b b false ahi ahi i1 i1 s1) rfl
    rw [hb3] at hd
    exact hd
  subst hd3
  dsimp only
  refine ⟨rfl, ?_⟩
  intro hlt
  have hs1 : bk ≤ s1 := by
    have hsz := @extendBack_size b b alo alo false (bi, bi, bk)
    rw [hb1] at hsz
    exact hsz
  have hs2 : s1 ≤ extendFwd b b false ahi ahi i1 i1 s1 :=
    @extendFwd_size b b ahi ahi false i1 i1 s1
  have hs3 : extendFwd b b false ahi ahi i1 i1 s1 ≤ s3 := by
    have hsz := @extendBack_size b b alo alo true
      (i1, i1, extendFwd b b false ahi ahi i1 i1 s1)
    rw [hb3] at hsz
    exact hsz
  have hs4 : s3 ≤ extendFwd b b true ahi ahi i3 i3 s3 :=
    @extendFwd_size b b ahi ahi true i3 i3 s3
  rcases Nat.eq_zero_or_pos bk with hk0 | hk1
  · -- trivial DP best: the window is junk-led, so one of the forward
    -- extension loops swallows at least one element
    subst hk0
    have hzero := @dp_best_zero b b alo ahi alo ahi (by rw [hbest])
    rw [hbest] at hzero
    have hbi : bi = alo := by
      have hc := congrArg (fun p => p.1) hzero
      simpa using hc
    have hb1e : extendBack b b false alo alo (bi, bi, 0) = (bi, bi, 0) :=
      extendBackGo_stop false bi bi 0 (by omega)
    rw [hb1e] at hb1
    have hi1 : i1 = bi := by
      have hc := congrArg (fun p => p.1) hb1
      simpa using hc.symm
    have hs1z : s1 = 0 := by
      have hc := congrArg (fun p => p.2.2) hb1
      simpa using hc.symm
    rcases Nat.eq_zero_or_pos s3 with hs3z | hs3pos
    · -- everything before the junk loop did nothing
      have hs2z : extendFwd b b false ahi ahi i1 i1 s1 = 0 := by omega
      have hb3e : extendBack b b true alo alo
          (i1, i1, extendFwd b b false ahi ahi i1 i1 s1) = (i1, i1, 0) := by
        rw [hs2z]
        exact extendBackGo_stop true i1 i1 0 (by omega)
      rw [hb3e] at hb3
      have hi3 : i3 = i1 := by
        have hc := congrArg (fun p => p.1) hb3
        simpa using hc.symm
      rw [hs3z, hi3, hi1, hbi]
      by_cases hpop : isPopular b (b.getD alo ' ') = true
      · exact extendFwd_fire true alo alo (by omega) (by omega) hpop rfl
      · exfalso
        have hfire : 1 ≤ extendFwd b b false ahi ahi alo alo 0 :=
          extendFwd_fire false alo alo (by omega) (by omega) (by simpa using hpop) rfl
        rw [hs1z, hi1, hbi] at hs2z
        omega
    · omega
  · omega

/-- On a self-comparison, the matched total covers the whole window. -/
theorem matchTotal_refl :
    ∀ (M alo' ahi' : Nat), ahi' - alo' ≤ M → ahi' ≤ b.length →
      matchTotal b b alo' ahi' alo' ahi' = ahi' - alo' := by
  intro M
  induction M with
  | zero =>
    intro alo' ahi' h hlen
    rw [matchTotal_eq]
    rcases hflm : find_longest_match b b alo' ahi' alo' ahi' with ⟨i, j, k⟩
    dsimp only
    rcases Nat.eq_zero_or_pos k with h0 | hpos
    · simp [h0]
      omega
    · obtain ⟨b1, b2, -, -, -⟩ := flm_bounds hflm hpos
      omega
  | succ M ih =>
    intro alo' ahi' h hlen
    rcases Nat.lt_or_ge alo' ahi' with hlt | hge
    · rw [matchTotal_eq]
      rcases hflm : find_longest_match b b alo' ahi' alo' ahi' with ⟨i, j, k⟩
      dsimp only
      have hd := @flm_diag b alo' ahi' hlen
      rw [hflm] at hd
      have hij : i = j := hd.1
      subst hij
      have hk : 1 ≤ k := hd.2 hlt
      rw [if_neg (by omega)]
      obtain ⟨b1, b2, -, -, -⟩ := flm_bounds hflm hk
      have eL : (if alo' < i ∧ alo' < i then matchTotal b b alo' i alo' i else 0)
          = i - alo' := by
        by_cases hL : alo' < i ∧ alo' < i
        · rw [if_pos hL]
          exact ih alo' i (by omega) (by omega)
        · rw [if_neg hL]
          omega
      have eR : (if i + k < ahi' ∧ i + k < ahi'
            then matchTotal b b (i + k) ahi' (i + k) ahi' else 0) = ahi' - (i + k) := by
        by_cases hR : i + k < ahi' ∧ i + k < ahi'
        · rw [if_pos hR]
          exact ih (i + k) ahi' (by omega) hlen
        · rw [if_neg hR]
          omega
      rw [eL, eR]
      omega
    · rw [matchTotal_eq]
      rcases hflm : find_longest_match b b alo' ahi' alo' ahi' with ⟨i, j, k⟩
      dsimp only
      rcases Nat.eq_zero_or_pos k with h0 | hpos
      · simp [h0]
        omega
      · obtain ⟨b1, b2, -, -, -⟩ := flm_bounds hflm hpos
        omega

/-- `ratio` of a sequence against itself is 1. -/
theorem ratioQ_refl (l : List Char) : ratioQ l l = 1 := by
  unfold ratioQ
  by_cases h : l.length + l.length = 0
  · rw [if_pos h]
  · rw [if_neg h]
    have hm : matchTotal l l 0 l.length 0 l.length = l.length := by
      have := matchTotal_refl (b := l) l.length 0 l.length (by omega) le_rfl
      simpa using this
    rw [hm]
    have hn : (l.length : ℚ) ≠ 0 := Nat.cast_ne_zero.mpr (by omega)
    push_cast
    field_simp
    ring

/-- The regions a full-cover total forces are pointwise equal. -/
theorem matchTotal_full :
    ∀ (M alo' ahi' blo' bhi' : Nat), (ahi' - alo') + (bhi' - blo') ≤ M →
      alo' ≤ ahi' → blo' ≤ bhi' →
      matchTotal a b alo' ahi' blo' bhi' = ahi' - alo' →
      matchTotal a b alo' ahi' blo' bhi' = bhi' - blo' →
      ∀ t < ahi' - alo', a.getD (alo' + t) ' ' = b.getD (blo' + t) ' ' := by
  intro M
  induction M with
  | zero =>
    intro alo' ahi' blo' bhi' hM ha hb h1 h2 t ht
    omega
  | succ M ih =>
    intro alo' ahi' blo' bhi' hM ha hb h1 h2 t ht
    rw [matchTotal_eq] at h1 h2
    rcases hflm : find_longest_match a b alo' ahi' blo' bhi' with ⟨i, j, k⟩
    rw [hflm] at h1 h2
    dsimp only at h1 h2
    rcases Nat.eq_zero_or_pos k with h0 | hk
    · rw [if_pos h0] at h1
      omega
    · rw [if_neg (show ¬ (k = 0) by omega)] at h1 h2
      obtain ⟨b1, b2, b3, b4, bm⟩ := flm_bounds hflm hk
      have hLle : (if alo' < i ∧ blo' < j then matchTotal a b alo' i blo' j else 0)
            ≤ i - alo' ∧
          (if alo' < i ∧ blo' < j then matchTotal a b alo' i blo' j else 0) ≤ j - blo' := by
        by_cases hc : alo' < i ∧ blo' < j
        · rw [if_pos hc]
          exact matchTotal_le alo' i blo' j
        · rw [if_neg hc]
          omega
      have hRle : (if i + k < ahi' ∧ j + k < bhi'
              then matchTotal a b (i + k) ahi' (j + k) bhi' else 0) ≤ ahi' - (i + k) ∧
          (if i + k < ahi' ∧ j + k < bhi'
              then matchTotal a b (i + k) ahi' (j + k) bhi' else 0) ≤ bhi' - (j + k) := by
        by_cases hc : i + k < ahi' ∧ j + k < bhi'
        · rw [if_pos hc]
          exact matchTotal_le (i + k) ahi' (j + k) bhi'
        · rw [if_neg hc]
          omega
      have key : (if alo' < i ∧ blo' < j then matchTotal a b alo' i blo' j else 0)
            = i - alo' ∧
          (if alo' < i ∧ blo' < j then matchTotal a b alo' i blo' j else 0) = j - blo' ∧
          (if i + k < ahi' ∧ j + k < bhi'
              then matchTotal a b (i + k) ahi' (j + k) bhi' else 0) = ahi' - (i + k) ∧
          (if i + k < ahi' ∧ j + k < bhi'
              then matchTotal a b (i + k) ahi' (j + k) bhi' else 0) = bhi' - (j + k) := by
        omega
      rcases Nat.lt_or_ge t (i - alo') with ht1 | ht1
      · have hc : alo' < i ∧ blo' < j := by omega
        have hLv1 : matchTotal a b alo' i blo' j = i - alo' := by
          have := key.1
          rwa [if_pos hc] at this
        have hLv2 : matchTotal a b alo' i blo' j = j - blo' := by
          have := key.2.1
          rwa [if_pos hc] at this
        exact ih alo' i blo' j (by omega) (by omega) (by omega) hLv1 hLv2 t ht1
      · rcases Nat.lt_or_ge t ((i - alo') + k) with ht2 | ht2
        · have e1 : alo' + t = i + (t - (i - alo')) := by omega
          have e2 : blo' + t = j + (t - (i - alo')) := by
            have hjb : j - blo' = i - alo' := by omega
            omega
          rw [e1, e2]
          exact bm _ (by omega)
        · have hc : i + k < ahi' ∧ j + k < bhi' := by omega
          have hRv1 : matchTotal a b (i + k) ahi' (j + k) bhi' = ahi' - (i + k) := by
            have := key.2.2.1
            rwa [if_pos hc] at this
          have hRv2 : matchTotal a b (i + k) ahi' (j + k) bhi' = bhi' - (j + k) := by
            have := key.2.2.2
            rwa [if_pos hc] at this
          have e1 : alo' + t = (i + k) + (t - (i - alo') - k) := by omega
          have e2 : blo' + t = (j + k) + (t - (i - alo') - k) := by
            have hjb : j - blo' = i - alo' := by omega
            omega
          rw [e1, e2]
          exact ih (i + k) ahi' (j + k) bhi' (by omega) (by omega) (by omega)
            hRv1 hRv2 _ (by omega)

/-- `ratio` is 1 exactly on equal sequences. -/
theorem ratioQ_eq_one_iff (x y : List Char) : ratioQ x y = 1 ↔ x = y := by
  constructor
  · intro h
    unfold ratioQ at h
    by_cases h0 : x.length + y.length = 0
    · have hx : x = [] := List.length_eq_zero.mp (by omega)
      have hy : y = [] := List.length_eq_zero.mp (by omega)
      rw [hx, hy]
    · rw [if_neg h0] at h
      have hT : ((x.length + y.length : Nat) : ℚ) ≠ 0 := Nat.cast_ne_zero.mpr (by omega)
      rw [div_eq_one_iff_eq hT] at h
      have h2M : 2 * matchTotal x y 0 x.length 0 y.length = x.length + y.length := by
        exact_mod_cast h
      obtain ⟨hle1, hle2⟩ := matchTotal_le (a := x) (b := y) 0 x.length 0 y.length
      simp only [Nat.sub_zero] at hle1 hle2
      have hMx : matchTotal x y 0 x.length 0 y.length = x.length := by omega
      have hMy : matchTotal x y 0 x.length 0 y.length = y.length := by omega
      have hseg := matchTotal_full (a := x) (b := y) (x.length + y.length)
        0 x.length 0 y.length (by omega) (by omega) (by omega)
        (by simpa using hMx) (by simpa using hMy)
      apply List.ext_getElem (by omega)
      intro n h1 h2
      have hn := hseg n (by omega)
      simp only [Nat.zero_add] at hn
      rw [List.getD_eq_getElem x ' ' h1, List.getD_eq_getElem y ' ' h2] at hn
      exact hn
  · intro h
    subst h
    exact ratioQ_refl x

end FlmLemmas

/-! ## Program-level lemmas -/

theorem string_toList_inj {s t : String} (h : s.toList = t.toList) : s = t := by
  cases s
  cases t
  simp only [String.toList] at h
  rw [h]

/-- Both branches of the per-link loop record the processed link. -/
theorem processLink_broken (env : Env) (base_url page broken_link : String)
    (raised : Option String) :
    (processLink env base_url page broken_link raised).broken = broken_link := by
  unfold processLink
  cases raised <;> rfl

/-- A truthy probe result short-circuits the whole cascade: the run's only
effect is the probe itself. -/
theorem find_correct_link_probe_hit (env : Env) (base_url page_path broken_link : String)
    (h : isTruthy (check_redirect env base_url broken_link) = true) :
    find_correct_link env base_url page_path broken_link =
      { fix := check_redirect env base_url broken_link,
        method := some "http_redirect",
        trace := [Event.probe (redirect_full_url base_url broken_link)] } := by
  unfold find_correct_link
  simp [h]

/-- A failed probe followed by an owning-page load timeout aborts the
cascade with no fix, after only the probe and the navigation attempt. -/
theorem find_correct_link_timeout (env : Env) (base_url page_path broken_link : String)
    (h1 : isTruthy (check_redirect env base_url broken_link) = false)
    (h2 : env.loadOk (pyUrljoin (rstripSlashes base_url ++ "/")
        (lstripSlashes (pyReplace page_path ".mdx" ""))) = false) :
    find_correct_link env base_url page_path broken_link =
      { fix := none, method := none,
        trace := [Event.probe (redirect_full_url base_url broken_link),
          Event.goto (pyUrljoin (rstripSlashes base_url ++ "/")
            (lstripSlashes (pyReplace page_path ".mdx" "")))] } := by
  unfold find_correct_link
  simp [h1, h2]

/-- The per-heading loop of the source equals the per-heading tier scan of
the amended specification sentence. -/
theorem anchorLoop_eq_spec (fragment currentPath : String) :
    ∀ headers : List Header,
      anchorLoop fragment currentPath headers = anchorTiersSpec fragment currentPath headers := by
  intro headers
  induction headers with
  | nil => rfl
  | cons h hs ih =>
    unfold anchorLoop anchorTiersSpec
    simp only [List.firstM]
    split
    · rfl
    · split
      · rfl
      · split
        · rfl
        · unfold anchorTiersSpec at ih
          simpa using ih

/-- A non-empty string is truthy. -/
theorem isTruthy_some_of_ne {s : String} (h : s ≠ "") : isTruthy (some s) = true := by
  unfold isTruthy
  rw [Bool.not_eq_true', Bool.eq_false_iff]
  intro hc
  exact h ((String.isEmpty_iff s).mp hc)

/-- One parser step only ever emits an entry with a non-empty link list. -/
theorem parseStep_entries_sound (st : ParseState) (l : String)
    (h : ∀ e ∈ st.1, e.broken_links ≠ []) :
    ∀ e ∈ (parseStep st l).1, e.broken_links ≠ [] := by
  obtain ⟨entries, cp, links⟩ := st
  unfold parseStep
  dsimp only
  split
  · exact h
  · split
    · cases cp with
      | none => exact h
      | some p => exact h
    · cases cp with
      | none => exact h
      | some p =>
        dsimp only
        split
        · rename_i hcond
          intro e he
          rw [List.mem_append] at he
          rcases he with he | he
          · exact h e he
          · rw [List.mem_singleton] at he
            subst he
            exact hcond
        · exact h

/-- Every entry the parser returns has at least one broken link. -/
theorem parse_nonempty_links (content : String) :
    ∀ e ∈ parse_broken_links_file content, e.broken_links ≠ [] := by
  unfold parse_broken_links_file
  have haux : ∀ (lines : List String) (st : ParseState),
      (∀ e ∈ st.1, e.broken_links ≠ []) →
      ∀ e ∈ (lines.foldl parseStep st).1, e.broken_links ≠ [] := by
    intro lines
    induction lines with
    | nil =>
      intro st h
      simpa using h
    | cons l ls ih =>
      intro st h
      rw [List.foldl_cons]
      exact ih _ (parseStep_entries_sound st l h)
  have h0 := haux (pySplitOn (pyTrim content) "\n") ([], none, []) (by simp)
  rcases hst : (pySplitOn (pyTrim content) "\n").foldl parseStep ([], none, [])
    with ⟨entries, cp, links⟩
  rw [hst] at h0
  dsimp only
  rw [hst]
  cases cp with
  | none => exact h0
  | some p =>
    dsimp only
    split
    · rename_i hcond
      intro e he
      rw [List.mem_append] at he
      rcases he with he | he
      · exact h0 e he
      · rw [List.mem_singleton] at he
        subst he
        exact hcond
    · exact h0

/-- When the broken link carries a non-empty anchor and the nav-link pass
produced nothing truthy, `find_best_match_by_content` is the per-heading
anchor loop with the nav result as fallback. -/
theorem fbmc_anchor (broken_link : String) (ci : ContentInfo) (current_url : String)
    (anc : String) (hanc : brokenAnchorOf broken_link = some anc) (hne : anc ≠ "")
    (hnav : isTruthy (ci.nav_links.foldl
        (navLoopStep (brokenPathOf broken_link) (some anc)) (none, 0)).1 = false) :
    find_best_match_by_content broken_link ci current_url
      = match anchorLoop anc (urlPath current_url) ci.section_headers with
        | some r => some r
        | none => (ci.nav_links.foldl
            (navLoopStep (brokenPathOf broken_link) (some anc)) (none, 0)).1 := by
  unfold find_best_match_by_content
  rw [hanc]
  dsimp only
  rw [if_pos ⟨isTruthy_some_of_ne hne, hnav⟩]

/-! ## Claim theorems -/

/-- C6 counterexample: `similarity_score` is not symmetric — difflib's
best-block scan selects different block decompositions depending on
argument order (`0.75` versus `0.5` here), refuting the symmetry conjunct. -/
theorem c6_counterexample :
    ¬ (similarity_score "aba" "babba" = similarity_score "babba" "aba") := by
  have hl1 : pyLower "aba" = "aba" := by decide
  have hl2 : pyLower "babba" = "babba" := by decide
  have h1 : matchTotal "aba".toList "babba".toList 0 "aba".toList.length 0
      "babba".toList.length = 3 := by decide
  have h2 : matchTotal "babba".toList "aba".toList 0 "babba".toList.length 0
      "aba".toList.length = 2 := by decide
  have e1 : "aba".toList.length = 3 := by decide
  have e2 : "babba".toList.length = 5 := by decide
  unfold similarity_score ratioQ
  rw [hl1, hl2, h1, h2, e1, e2]
  norm_num

/-- C6 (amended): for every string `a`, `similarity_score(a, a) == 1.0`,
and `similarity_score(a, b) == 1.0` exactly when `a` and `b` are equal
after case-folding; the symmetry conjunct of the original claim is dropped
(see the counterexample). -/
theorem c6_amended :
    (∀ s : String, similarity_score s s = 1)
    ∧ ∀ s t : String, similarity_score s t = 1 ↔ pyLower s = pyLower t := by
  constructor
  · intro s
    unfold similarity_score
    exact ratioQ_refl _
  · intro s t
    unfold similarity_score
    rw [ratioQ_eq_one_iff]
    constructor
    · exact string_toList_inj
    · intro h
      rw [h]

/-- C6 witness: the amended claim evaluated at concrete strings. -/
theorem c6_witness : similarity_score "Guide" "guide" = 1 :=
  (c6_amended.2 "Guide" "guide").mpr (by decide)

/-- C1: when the worker loop runs to completion (no job-level exception),
the page report holds exactly one link report per broken link of the entry,
in catalogue order: the report list has the same length, and the report at
every index records that index's broken link. -/
theorem c1_reports_in_order (env : Env) (entry : Entry) (base_url : String)
    (worker_id : Nat) (raiseAt : Nat → Option String) :
    (process_entry_worker env entry base_url worker_id none raiseAt).links.length
        = entry.broken_links.length
    ∧ ∀ i : Nat,
        ((process_entry_worker env entry base_url worker_id none raiseAt).links[i]?).map
            LinkReport.broken
          = entry.broken_links[i]? := by
  unfold process_entry_worker
  dsimp only
  constructor
  · simp
  · intro i
    simp only [List.getElem?_map, List.getElem?_enum]
    cases entry.broken_links[i]? with
    | none => rfl
    | some bl => simp [processLink_broken]

/-- C2: a truthy redirect-probe result is returned as the fix with method
`http_redirect`, and the run's whole effect trace is the probe itself — no
navigation, file read, DOM query or click follows. -/
theorem c2_short_circuit (env : Env) (base_url page_path broken_link : String)
    (h : isTruthy (check_redirect env base_url broken_link) = true) :
    (find_correct_link env base_url page_path broken_link).fix
        = check_redirect env base_url broken_link
    ∧ (find_correct_link env base_url page_path broken_link).method
        = some "http_redirect"
    ∧ (find_correct_link env base_url page_path broken_link).trace
        = [Event.probe (redirect_full_url base_url broken_link)] := by
  rw [find_correct_link_probe_hit env base_url page_path broken_link h]
  exact ⟨rfl, rfl, rfl⟩

/-- C2 witness: the short-circuit at a concrete redirecting network. -/
theorem c2_witness :
    isTruthy (check_redirect envRedirect "https://x.io" "/old") = true
    ∧ (find_correct_link envRedirect "https://x.io" "docs/a.mdx" "/old").fix
        = check_redirect envRedirect "https://x.io" "/old"
    ∧ (find_correct_link envRedirect "https://x.io" "docs/a.mdx" "/old").method
        = some "http_redirect"
    ∧ (find_correct_link envRedirect "https://x.io" "docs/a.mdx" "/old").trace
        = [Event.probe (redirect_full_url "https://x.io" "/old")] :=
  ⟨by decide, c2_short_circuit envRedirect "https://x.io" "docs/a.mdx" "/old" (by decide)⟩

/-- C3 counterexample: a body-less `204` success (a 2xx) whose final URL
moved.  The claim says the probe returns the final URL's path, but the code
tests `status_code == 200`, so it returns nothing. -/
theorem c3_counterexample :
    check_redirect env204 "https://x.io" "/old" = none
    ∧ check_redirect env204 "https://x.io" "/old"
        ≠ some (pathWithFragment "https://x.io/new") := by
  constructor
  · decide
  · decide

/-- C3 (amended): the probe returns the final URL's path+fragment exactly
when the request succeeds with status exactly `200` and the final URL
differs from the requested one; a `200` whose URL did not move returns the
original link; a raised request or any non-`200` status returns `none`
(no exception escapes: every outcome is a returned value). -/
theorem c3_amended (env : Env) (base_url broken_link : String) :
    (env.http (redirect_full_url base_url broken_link) = none →
      check_redirect env base_url broken_link = none)
    ∧ (∀ status finalUrl,
        env.http (redirect_full_url base_url broken_link) = some (status, finalUrl) →
        status ≠ 200 →
        check_redirect env base_url broken_link = none)
    ∧ (∀ finalUrl,
        env.http (redirect_full_url base_url broken_link) = some (200, finalUrl) →
        finalUrl ≠ redirect_full_url base_url broken_link →
        check_redirect env base_url broken_link = some (pathWithFragment finalUrl))
    ∧ (env.http (redirect_full_url base_url broken_link)
          = some (200, redirect_full_url base_url broken_link) →
        check_redirect env base_url broken_link = some broken_link) := by
  refine ⟨fun h => ?_, fun status finalUrl h hs => ?_, fun finalUrl h hne => ?_,
    fun h => ?_⟩
  · simp only [check_redirect]
    rw [h]
  · simp only [check_redirect]
    rw [h]
    dsimp only
    rw [if_neg (fun hc => hs hc.1), if_neg (fun hc => hs hc.1)]
  · simp only [check_redirect]
    rw [h]
    dsimp only
    rw [if_pos ⟨rfl, hne⟩]
  · simp only [check_redirect]
    rw [h]
    dsimp only
    rw [if_neg (fun hc => hc.2 rfl), if_pos ⟨rfl, rfl⟩]

/-- C3 witness: the amended `200`-and-moved case at a concrete network. -/
theorem c3_witness :
    envRedirect.http (redirect_full_url "https://x.io" "/old")
        = some (200, "https://x.io/new")
    ∧ ("https://x.io/new" : String) ≠ redirect_full_url "https://x.io" "/old"
    ∧ check_redirect envRedirect "https://x.io" "/old"
        = some (pathWithFragment "https://x.io/new") :=
  ⟨rfl, by decide,
    (c3_amended envRedirect "https://x.io" "/old").2.2.1 "https://x.io/new" rfl (by decide)⟩

/-- C4 counterexample: the empty broken link.  The probe's `200` with an
unmoved final URL returns the original link `""`, but `""` is falsy, so the
cascade keeps going and the worker reports `fix = none` — neither the
original link nor a `validation` fix type, refuting the unconditional
claim. -/
theorem c4_counterexample :
    check_redirect envSelf "https://x.io" "" = some ""
    ∧ (processLink envSelf "https://x.io" "docs/a.mdx" "" none).fix ≠ some ""
    ∧ (processLink envSelf "https://x.io" "docs/a.mdx" "" none).fix_type
        ≠ some "validation" := by
  refine ⟨by decide, by decide, by decide⟩

/-- C4 (amended): for a non-empty broken link whose probe returns the link
itself, the worker's report carries that link as the fix and classifies it
as `validation`, never as a distinct fix. -/
theorem c4_amended (env : Env) (base_url page broken_link : String)
    (hne : broken_link ≠ "")
    (hcr : check_redirect env base_url broken_link = some broken_link) :
    (processLink env base_url page broken_link none).fix = some broken_link
    ∧ (processLink env base_url page broken_link none).fix_type = some "validation" := by
  have ht : isTruthy (check_redirect env base_url broken_link) = true := by
    rw [hcr]
    exact isTruthy_some_of_ne hne
  unfold processLink
  rw [find_correct_link_probe_hit env base_url page broken_link ht]
  dsimp only
  rw [hcr]
  constructor
  · rfl
  · rw [if_pos (isTruthy_some_of_ne hne), if_neg (fun hc => hc rfl)]

/-- C4 witness: the amended validation case at a concrete non-redirecting
network. -/
theorem c4_witness :
    ("/x" : String) ≠ ""
    ∧ check_redirect envSelf "https://x.io" "/x" = some "/x"
    ∧ (processLink envSelf "https://x.io" "docs/a.mdx" "/x" none).fix = some "/x"
    ∧ (processLink envSelf "https://x.io" "docs/a.mdx" "/x" none).fix_type
        = some "validation" :=
  ⟨by decide, by decide,
    (c4_amended envSelf "https://x.io" "docs/a.mdx" "/x" (by decide) (by decide)).1,
    (c4_amended envSelf "https://x.io" "docs/a.mdx" "/x" (by decide) (by decide)).2⟩

/-- C5: every parsed entry has at least one broken link (a page line with
no following markers is dropped); the stated catalogue parses to exactly
one entry with its two links in order, flushed without a trailing blank
line; and a marker-less page followed by a marked page yields only the
latter. -/
theorem c5_parse (content : String) :
    (∀ e ∈ parse_broken_links_file content, e.broken_links ≠ [])
    ∧ parse_broken_links_file "docs/a.mdx\n⎿ /old/path\n⎿ /old/path#section\n"
        = [{ page := "docs/a.mdx", broken_links := ["/old/path", "/old/path#section"] }]
    ∧ parse_broken_links_file "docs/none.mdx\ndocs/a.mdx\n⎿ /x\n"
        = [{ page := "docs/a.mdx", broken_links := ["/x"] }] :=
  ⟨parse_nonempty_links content, by decide, by decide⟩

/-- C5 witness: the non-emptiness of a concrete parsed entry's links. -/
theorem c5_witness :
    ({ page := "docs/a.mdx", broken_links := ["/old/path", "/old/path#section"] } : Entry)
        ∈ parse_broken_links_file "docs/a.mdx\n⎿ /old/path\n⎿ /old/path#section\n"
    ∧ ({ page := "docs/a.mdx",
          broken_links := ["/old/path", "/old/path#section"] } : Entry).broken_links
        ≠ [] :=
  ⟨by decide,
    (c5_parse "docs/a.mdx\n⎿ /old/path\n⎿ /old/path#section\n").1 _ (by decide)⟩

/-- C7 counterexample: the anchor tiers are applied per heading, not each
tier across all headings.  The second heading's id `setup` matches the
fragment exactly, which the claimed tier order would return first, but the
loop resolves the first heading's fuzzy id `setupp` (similarity `10/11 >
0.7`) before ever reaching it. -/
theorem c7_counterexample :
    (⟨"setup", "Install"⟩ : Header) ∈ ci7.section_headers
    ∧ find_best_match_by_content "/old#setup" ci7 "https://x.io/g" = some "/g#setupp"
    ∧ some "/g#setupp" ≠ some ("/g" ++ "#" ++ "setup") := by
  refine ⟨by decide, ?_, by decide⟩
  have hm : matchTotal "setupp".toList "setup".toList 0 "setupp".toList.length 0
      "setup".toList.length = 5 := by decide
  have hsim : similarity_score "setupp" "setup" = 10 / 11 := by
    have hl1 : pyLower "setupp" = "setupp" := by decide
    have hl2 : pyLower "setup" = "setup" := by decide
    unfold similarity_score ratioQ
    rw [hl1, hl2, hm]
    have e1 : "setupp".toList.length = 6 := by decide
    have e2 : "setup".toList.length = 5 := by decide
    rw [e1, e2]
    norm_num
  have haL : anchorLoop "setup" (urlPath "https://x.io/g")
      [⟨"setupp", "Tuning"⟩, ⟨"setup", "Install"⟩] = some "/g#setupp" := by
    rw [show urlPath "https://x.io/g" = "/g" from by decide]
    have hb1 : ¬(("setupp" : String) ≠ "" ∧ ("setupp" : String) = "setup") := by decide
    have hb2 : ("setupp" : String) ≠ ""
        ∧ (7 / 10 : ℚ) < similarity_score "setupp" "setup" := by
      refine ⟨by decide, ?_⟩
      rw [hsim]
      norm_num
    simp only [anchorLoop]
    rw [if_neg hb1, if_pos hb2]
    decide
  rw [fbmc_anchor "/old#setup" ci7 "https://x.io/g" "setup" (by decide) (by decide)
    (by decide)]
  rw [show ci7.section_headers = [⟨"setupp", "Tuning"⟩, ⟨"setup", "Install"⟩] from rfl]
  rw [haL]

/-- C7 (amended): when the broken link carries a non-empty anchor and the
nav-link pass accepted nothing, `find_best_match_by_content` resolves the
anchor against the current page's headings by trying, for each heading in
document order, the exact id match, then the fuzzy id match above `0.7`,
then the slugified-text match above `0.7` (the tiers cascade per heading,
not across all headings), returning the current path joined with `#` and
the matched heading's id (or slug when the heading has no id); if no
heading hits, the nav-pass result stands. -/
theorem c7_amended (broken_link : String) (ci : ContentInfo) (current_url : String)
    (anc : String) (hanc : brokenAnchorOf broken_link = some anc) (hne : anc ≠ "")
    (hnav : isTruthy (ci.nav_links.foldl
        (navLoopStep (brokenPathOf broken_link) (some anc)) (none, 0)).1 = false) :
    find_best_match_by_content broken_link ci current_url
      = match anchorTiersSpec anc (urlPath current_url) ci.section_headers with
        | some r => some r
        | none => (ci.nav_links.foldl
            (navLoopStep (brokenPathOf broken_link) (some anc)) (none, 0)).1 := by
  rw [fbmc_anchor broken_link ci current_url anc hanc hne hnav]
  rw [anchorLoop_eq_spec]

/-- C7 witness: the amended per-heading resolution at a concrete page whose
single heading id matches the anchor exactly. -/
theorem c7_witness :
    brokenAnchorOf "/old#intro" = some "intro"
    ∧ find_best_match_by_content "/old#intro"
        { nav_links := [], section_headers := [⟨"intro", "Introduction"⟩],
          breadcrumbs := [] } "https://x.io/g"
        = some "/g#intro" :=
  ⟨by decide,
    (c7_amended "/old#intro"
        { nav_links := [], section_headers := [⟨"intro", "Introduction"⟩],
          breadcrumbs := [] } "https://x.io/g" "intro" (by decide) (by decide)
        (by decide)).trans (by decide)⟩

/-- C8: when the owning page's load times out, every link report of the
entry either carries no fix, or was already resolved by the redirect probe
(which runs before the page load); nothing escapes the worker — the loop
still yields a report for the entry. -/
theorem c8_timeout_reports (env : Env) (entry : Entry) (base_url : String)
    (worker_id : Nat) (raiseAt : Nat → Option String)
    (hload : env.loadOk (pyUrljoin (rstripSlashes base_url ++ "/")
        (lstripSlashes (pyReplace entry.page ".mdx" ""))) = false) :
    ∀ r ∈ (process_entry_worker env entry base_url worker_id none raiseAt).links,
      r.fix = none
      ∨ (isTruthy (check_redirect env base_url r.broken) = true
          ∧ r.fix = check_redirect env base_url r.broken) := by
  intro r hr
  unfold process_entry_worker at hr
  dsimp only at hr
  rw [List.mem_map] at hr
  obtain ⟨⟨i, bl⟩, hmem, rfl⟩ := hr
  dsimp only
  cases hra : raiseAt i with
  | some e =>
    left
    simp [processLink, hra]
  | none =>
    rw [processLink_broken]
    cases hprobe : isTruthy (check_redirect env base_url bl) with
    | true =>
      right
      refine ⟨rfl, ?_⟩
      have hfc := find_correct_link_probe_hit env base_url entry.page bl hprobe
      simp [processLink, hra, hfc]
    | false =>
      left
      have hfc := find_correct_link_timeout env base_url entry.page bl hprobe hload
      simp [processLink, hra, hfc]

/-- C8 witness: the timed-out page at a concrete entry — the probe fails
too, so the link's report has no fix. -/
theorem c8_witness :
    failEnv.loadOk (pyUrljoin (rstripSlashes "https://x.io" ++ "/")
        (lstripSlashes (pyReplace "docs/a.mdx" ".mdx" ""))) = false
    ∧ (processLink failEnv "https://x.io" "docs/a.mdx" "/x" none
          ∈ (process_entry_worker failEnv { page := "docs/a.mdx", broken_links := ["/x"] }
              "https://x.io" 1 none fun _ => none).links)
    ∧ ((processLink failEnv "https://x.io" "docs/a.mdx" "/x" none).fix = none
        ∨ (isTruthy (check_redirect failEnv "https://x.io"
              (processLink failEnv "https://x.io" "docs/a.mdx" "/x" none).broken) = true
            ∧ (processLink failEnv "https://x.io" "docs/a.mdx" "/x" none).fix
                = check_redirect failEnv "https://x.io"
                    (processLink failEnv "https://x.io" "docs/a.mdx" "/x" none).broken)) :=
  ⟨by decide, by decide,
    c8_timeout_reports failEnv { page := "docs/a.mdx", broken_links := ["/x"] }
      "https://x.io" 1 (fun _ => none) (by decide)
      (processLink failEnv "https://x.io" "docs/a.mdx" "/x" none) (by decide)⟩

/-- C9: on the normal path and on the per-link exception path alike, a
link report's confidence is `high` exactly when its fix is truthy and
`none` exactly when its fix is falsy. -/
theorem c9_confidence_iff (env : Env) (entry : Entry) (base_url : String)
    (worker_id : Nat) (raiseAt : Nat → Option String) :
    ∀ r ∈ (process_entry_worker env entry base_url worker_id none raiseAt).links,
      (r.confidence = "high" ↔ isTruthy r.fix = true)
      ∧ (r.confidence = "none" ↔ isTruthy r.fix = false) := by
  intro r hr
  unfold process_entry_worker at hr
  dsimp only at hr
  rw [List.mem_map] at hr
  obtain ⟨⟨i, bl⟩, -, rfl⟩ := hr
  dsimp only
  cases hra : raiseAt i with
  | some e => simp [processLink, hra, isTruthy]
  | none =>
    simp only [processLink, hra]
    cases hfix : isTruthy (find_correct_link env base_url entry.page bl).fix with
    | true => simp [hfix]
    | false => simp [hfix]

/-- C9 witness: a concrete link resolved by the probe — confidence `high`
with a truthy fix. -/
theorem c9_witness :
    (processLink envRedirect "https://x.io" "p" "/old" none
        ∈ (process_entry_worker envRedirect { page := "p", broken_links := ["/old"] }
            "https://x.io" 1 none fun _ => none).links)
    ∧ ((processLink envRedirect "https://x.io" "p" "/old" none).confidence = "high"
        ↔ isTruthy (processLink envRedirect "https://x.io" "p" "/old" none).fix = true)
    ∧ ((processLink envRedirect "https://x.io" "p" "/old" none).confidence = "none"
        ↔ isTruthy (processLink envRedirect "https://x.io" "p" "/old" none).fix = false) :=
  ⟨by decide,
    c9_confidence_iff envRedirect { page := "p", broken_links := ["/old"] } "https://x.io"
      1 (fun _ => none) (processLink envRedirect "https://x.io" "p" "/old" none)
      (by decide)⟩

/-- C10: with no explicit worker count, an empty entries list makes the
worker count `min MAX_INSTANCES 0 = 0`, which the pool rejects by raising
`ValueError`; a non-empty entries list always returns normally. -/
theorem c10_pool_guard (env : Env) (base_url : String) (outerFail : Nat → Option String)
    (raiseAt : Nat → Nat → Option String) (order : List Nat) :
    process_entries_parallel env [] base_url none outerFail raiseAt order
        = Except.error "max_workers must be greater than 0"
    ∧ ∀ entries : List Entry, entries ≠ [] →
        ∃ rs, process_entries_parallel env entries base_url none outerFail raiseAt order
            = Except.ok rs := by
  constructor
  · simp [process_entries_parallel, MAX_INSTANCES]
  · intro entries hne
    have hlen : entries.length ≠ 0 := by
      intro hc
      exact hne (List.length_eq_zero.mp hc)
    have hmw : ¬ (min MAX_INSTANCES entries.length = 0) := by
      simp only [MAX_INSTANCES]
      omega
    simp only [process_entries_parallel]
    rw [if_neg hmw]
    exact ⟨_, rfl⟩

/-- C10 witness: the pool returns normally at a concrete one-entry list. -/
theorem c10_witness :
    ([({ page := "p", broken_links := ["/x"] } : Entry)] ≠ [])
    ∧ ∃ rs, process_entries_parallel failEnv [{ page := "p", broken_links := ["/x"] }]
        "https://x.io" none (fun _ => none) (fun _ _ => none) [0] = Except.ok rs :=
  ⟨by decide,
    (c10_pool_guard failEnv "https://x.io" (fun _ => none) (fun _ _ => none) [0]).2
      [{ page := "p", broken_links := ["/x"] }] (by decide)⟩

end FixBrokenLinks
